import Mathlib

/-!
# Verification of the OpenTimestamps client core

A shallow embedding of the proof-artifact codec and tree model of the
opentimestamps client (`src/ots/ser.rs`, `src/ots/timestamp.rs`,
`src/ots/attestation.rs`, `src/ots/op.rs`, `src/ots/digest.rs`,
`src/commands/verify.rs`).

Conventions of the embedding:
* Byte streams are `List Nat` (each element one octet); readers take the
  remaining stream and return the parsed value together with the rest.
* Machine integers (`usize`) are `Nat`.
* Rust `char` values are Unicode scalar values represented as `Nat`.
* Fallible operations return `Except OtsError`; a panic of the Rust code is
  modelled by `Option.none` of the corresponding total function.
* The cryptographic hash primitives come from an external crate
  (`bitcoin_hashes`); the embedding is parametric in a `HashImpl` record
  supplying them, and every theorem holds for an arbitrary implementation.
-/

namespace OTS

/-- Errors of `src/ots/error.rs` (`OtsError`). `Utf8` and `Io` carry payloads
in Rust that are irrelevant to control flow; they are nullary here. -/
inductive OtsError where
  | stackOverflow
  | invalidUriChar (c : Nat)
  | badDigestTag (b : Nat)
  | badOpTag (b : Nat)
  | badMagic (bytes : List Nat)
  | badVersion (v : Nat)
  | badLength (min max val : Nat)
  | trailingBytes
  | utf8Error
  | ioError
deriving DecidableEq, Repr

/-- `RECURSION_LIMIT` of `src/ots/error.rs`. -/
def RECURSION_LIMIT : Nat := 256

/-- `MAX_URI_LEN` of `src/ots/error.rs`. -/
def MAX_URI_LEN : Nat := 1000

/-- `MAX_OP_LENGTH` of `src/ots/error.rs`. -/
def MAX_OP_LENGTH : Nat := 4096

/-- `MAGIC` of `src/ots/ser.rs`: the 31-byte header constant. -/
def MAGIC : List Nat :=
  [0x00, 0x4f, 0x70, 0x65, 0x6e, 0x54, 0x69, 0x6d, 0x65, 0x73, 0x74, 0x61, 0x6d, 0x70, 0x73,
   0x00, 0x00, 0x50, 0x72, 0x6f, 0x6f, 0x66, 0x00, 0xbf, 0x89, 0xe2, 0xe8, 0x84, 0xe8, 0x92,
   0x94]

/-- `Deserializer::read_byte`: one octet, `Io` error at end of stream. -/
def read_byte : List Nat → Except OtsError (Nat × List Nat)
  | [] => .error .ioError
  | b :: s => .ok (b, s)

/-- Loop body of `Deserializer::read_uint` (LEB128 decode): `acc` and `shift`
are the accumulated value and current shift. -/
def read_uint_go : List Nat → Nat → Nat → Except OtsError (Nat × List Nat)
  | [], _, _ => .error .ioError
  | b :: s, acc, shift =>
    if b &&& 0x80 = 0 then .ok (acc ||| ((b &&& 0x7f) <<< shift), s)
    else read_uint_go s (acc ||| ((b &&& 0x7f) <<< shift)) (shift + 7)

/-- `Deserializer::read_uint`. -/
def read_uint (s : List Nat) : Except OtsError (Nat × List Nat) :=
  read_uint_go s 0 0

/-- `Deserializer::read_fixed_bytes`. -/
def read_fixed_bytes (n : Nat) (s : List Nat) : Except OtsError (List Nat × List Nat) :=
  if n ≤ s.length then .ok (s.take n, s.drop n) else .error .ioError

/-- `Deserializer::read_bytes`: varint length prefix, range-checked. -/
def read_bytes (mn mx : Nat) (s : List Nat) : Except OtsError (List Nat × List Nat) :=
  match read_uint s with
  | .error e => .error e
  | .ok (n, s') =>
    if n < mn ∨ mx < n then .error (.badLength mn mx n)
    else read_fixed_bytes n s'

/-- `Deserializer::read_magic`. -/
def read_magic (s : List Nat) : Except OtsError (List Nat) :=
  match read_fixed_bytes MAGIC.length s with
  | .error e => .error e
  | .ok (m, s') => if m = MAGIC then .ok s' else .error (.badMagic m)

/-- `Deserializer::read_version` (`VERSION = 1`). -/
def read_version (s : List Nat) : Except OtsError (List Nat) :=
  match read_uint s with
  | .error e => .error e
  | .ok (v, s') => if v = 1 then .ok s' else .error (.badVersion v)

/-- `Deserializer::check_eof`. -/
def check_eof : List Nat → Except OtsError Unit
  | [] => .ok ()
  | _ :: _ => .error .trailingBytes

/-- Loop of `Serializer::write_uint` for a nonzero argument: emit 7 value bits
per byte, the `as u8` truncation written as `% 256`. -/
def write_uint_go (n : Nat) : List Nat :=
  if n = 0 then []
  else if 0x7f < n then ((n % 256) ||| 0x80) :: write_uint_go (n >>> 7)
  else [n]
termination_by n
decreasing_by
  simp only [Nat.shiftRight_eq_div_pow]
  exact Nat.div_lt_self (by omega) (by norm_num)

/-- `Serializer::write_uint`: zero is the single byte `0x00`. -/
def write_uint (n : Nat) : List Nat :=
  if n = 0 then [0] else write_uint_go n

/-- Whether a byte is a UTF-8 continuation byte (`0x80..=0xBF`). -/
def isUtf8Cont (b : Nat) : Bool := 0x80 ≤ b && b ≤ 0xbf

/-- Validity of the middle byte of a 3-byte UTF-8 sequence (surrogates and
overlong forms excluded, as in Rust's `String::from_utf8`). -/
def utf8Valid3 (b b1 b2 : Nat) : Bool :=
  (if b = 0xe0 then 0xa0 ≤ b1 && b1 ≤ 0xbf
   else if b = 0xed then 0x80 ≤ b1 && b1 ≤ 0x9f
   else isUtf8Cont b1) && isUtf8Cont b2

/-- Validity of the continuation bytes of a 4-byte UTF-8 sequence (values
above `0x10FFFF` and overlong forms excluded). -/
def utf8Valid4 (b b1 b2 b3 : Nat) : Bool :=
  (if b = 0xf0 then 0x90 ≤ b1 && b1 ≤ 0xbf
   else if b = 0xf4 then 0x80 ≤ b1 && b1 ≤ 0x8f
   else isUtf8Cont b1) && isUtf8Cont b2 && isUtf8Cont b3

/-- Scalar value of a 2-byte UTF-8 sequence (arithmetic form of the usual
bit-mask formula). -/
def utf8Scalar2 (b b1 : Nat) : Nat := (b - 0xc0) * 64 + (b1 - 0x80)

/-- Scalar value of a 3-byte UTF-8 sequence. -/
def utf8Scalar3 (b b1 b2 : Nat) : Nat :=
  (b - 0xe0) * 4096 + (b1 - 0x80) * 64 + (b2 - 0x80)

/-- Scalar value of a 4-byte UTF-8 sequence. -/
def utf8Scalar4 (b b1 b2 b3 : Nat) : Nat :=
  (b - 0xf0) * 262144 + (b1 - 0x80) * 4096 + (b2 - 0x80) * 64 + (b3 - 0x80)

/-- UTF-8 decoding with the validation performed by Rust's
`String::from_utf8` (overlong forms, surrogates and values above `0x10FFFF`
are rejected); returns the list of Unicode scalar values.  The recursion is
fuel-indexed (one unit per decoded character) to be structural; each
character consumes at least one byte, so `utf8Decode` below supplies
sufficient fuel. -/
def utf8DecodeF : Nat → List Nat → Option (List Nat)
  | _, [] => some []
  | 0, _ :: _ => none
  | fuel + 1, b :: s =>
    if b ≤ 0x7f then (utf8DecodeF fuel s).map (b :: ·)
    else if b < 0xc2 then none
    else if b ≤ 0xdf then
      match s with
      | b1 :: s1 =>
        if isUtf8Cont b1 then (utf8DecodeF fuel s1).map (utf8Scalar2 b b1 :: ·) else none
      | [] => none
    else if b ≤ 0xef then
      match s with
      | b1 :: b2 :: s1 =>
        if utf8Valid3 b b1 b2 then (utf8DecodeF fuel s1).map (utf8Scalar3 b b1 b2 :: ·)
        else none
      | _ => none
    else if b ≤ 0xf4 then
      match s with
      | b1 :: b2 :: b3 :: s1 =>
        if utf8Valid4 b b1 b2 b3 then (utf8DecodeF fuel s1).map (utf8Scalar4 b b1 b2 b3 :: ·)
        else none
      | _ => none
    else none

/-- UTF-8 decoding of a byte string. -/
def utf8Decode (bs : List Nat) : Option (List Nat) :=
  utf8DecodeF bs.length bs

/-- UTF-8 encoding of one Unicode scalar value. -/
def utf8EncodeChar (c : Nat) : List Nat :=
  if c ≤ 0x7f then [c]
  else if c ≤ 0x7ff then [0xc0 + c / 64, 0x80 + c % 64]
  else if c ≤ 0xffff then [0xe0 + c / 4096, 0x80 + c / 64 % 64, 0x80 + c % 64]
  else [0xf0 + c / 262144, 0x80 + c / 4096 % 64, 0x80 + c / 64 % 64, 0x80 + c % 64]

/-- UTF-8 encoding of a string of scalar values (Rust `str::as_bytes`). -/
def utf8Encode (cs : List Nat) : List Nat :=
  (cs.map utf8EncodeChar).flatten

/-- The URI character whitelist of `Attestation::deserialize`
(`src/ots/attestation.rs`): letters, digits and the five marks
dot, dash, underscore, slash, colon; stated on scalar values. -/
def isUriChar (c : Nat) : Bool :=
  (0x61 ≤ c && c ≤ 0x7a) || (0x41 ≤ c && c ≤ 0x5a) || (0x30 ≤ c && c ≤ 0x39) ||
  c == 0x2e || c == 0x2d || c == 0x5f || c == 0x2f || c == 0x3a

/-- `Serializer::write_bytes`: varint length prefix followed by the data. -/
def write_bytes (data : List Nat) : List Nat :=
  write_uint data.length ++ data

/-- The hash primitives used by `Op::execute`; in the repository they come
from the external `bitcoin_hashes` crate, so the embedding is parametric in
them. -/
structure HashImpl where
  sha1 : List Nat → List Nat
  sha256 : List Nat → List Nat
  ripemd160 : List Nat → List Nat

/-- A concrete stand-in `HashImpl` used for closed test vectors (the theorems
over the codec hold for every implementation). -/
def stubHash : HashImpl where
  sha1 := fun _ => List.replicate 20 0
  sha256 := fun _ => List.replicate 32 0
  ripemd160 := fun _ => List.replicate 20 0

/-- One lowercase hex digit, as in the `hex` crate used by `Op::Hexlify`. -/
def hexDigit (n : Nat) : Nat := if n < 10 then 0x30 + n else 0x57 + n - 10

/-- Lowercase ASCII-hex expansion of a byte string (`hex::encode`). -/
def hexlifyBytes (bs : List Nat) : List Nat :=
  (bs.map (fun b => [hexDigit (b / 16), hexDigit (b % 16)])).flatten

/-- `Op` of `src/ots/op.rs`. -/
inductive Op where
  | sha1
  | sha256
  | ripemd160
  | hexlify
  | reverse
  | append (data : List Nat)
  | prepend (data : List Nat)
deriving DecidableEq, Repr

/-- `Op::tag`. -/
def Op.tag : Op → Nat
  | .sha1 => 0x02
  | .sha256 => 0x08
  | .ripemd160 => 0x03
  | .hexlify => 0xf3
  | .reverse => 0xf2
  | .append _ => 0xf0
  | .prepend _ => 0xf1

/-- `Op::execute`, with the hash primitives supplied by `H`. -/
def Op.execute (H : HashImpl) : Op → List Nat → List Nat
  | .sha1, input => H.sha1 input
  | .sha256, input => H.sha256 input
  | .ripemd160, input => H.ripemd160 input
  | .hexlify, input => hexlifyBytes input
  | .reverse, input => input.reverse
  | .append d, input => input ++ d
  | .prepend d, input => d ++ input

/-- `Op::deserialize_with_tag`: the payload of the binary ops is read with
bounds `1..=MAX_OP_LENGTH`. -/
def Op.deserialize_with_tag (tag : Nat) (s : List Nat) : Except OtsError (Op × List Nat) :=
  if tag = 0x02 then .ok (.sha1, s)
  else if tag = 0x08 then .ok (.sha256, s)
  else if tag = 0x03 then .ok (.ripemd160, s)
  else if tag = 0xf3 then .ok (.hexlify, s)
  else if tag = 0xf2 then .ok (.reverse, s)
  else if tag = 0xf0 then
    match read_bytes 1 MAX_OP_LENGTH s with
    | .error e => .error e
    | .ok (d, s1) => .ok (.append d, s1)
  else if tag = 0xf1 then
    match read_bytes 1 MAX_OP_LENGTH s with
    | .error e => .error e
    | .ok (d, s1) => .ok (.prepend d, s1)
  else .error (.badOpTag tag)

/-- `Op::serialize`: the tag byte, then the length-prefixed payload for the
two binary ops. -/
def Op.serialize : Op → List Nat
  | .append d => 0xf0 :: write_bytes d
  | .prepend d => 0xf1 :: write_bytes d
  | o => [o.tag]

/-- `BITCOIN_TAG` of `src/ots/attestation.rs`. -/
def BITCOIN_TAG : List Nat := [0x05, 0x88, 0x96, 0x0d, 0x73, 0xd7, 0x19, 0x01]

/-- `PENDING_TAG` of `src/ots/attestation.rs`. -/
def PENDING_TAG : List Nat := [0x83, 0xdf, 0xe3, 0x0d, 0x2e, 0xf9, 0x0c, 0x8e]

/-- `TAG_SIZE` of `src/ots/attestation.rs`. -/
def TAG_SIZE : Nat := 8

/-- `Attestation` of `src/ots/attestation.rs`; the pending URI is the list of
scalar values of the Rust `String`. -/
inductive Attestation where
  | bitcoin (height : Nat)
  | pending (uri : List Nat)
  | unknown (tag : List Nat) (data : List Nat)
deriving DecidableEq, Repr

/-- `Attestation::deserialize`: 8-byte tag, outer payload-length varint, then
the tag-specific body.  Note the outer length is used only by the unknown
branch. -/
def Attestation.deserialize (s : List Nat) : Except OtsError (Attestation × List Nat) :=
  match read_fixed_bytes TAG_SIZE s with
  | .error e => .error e
  | .ok (tag, s1) =>
    match read_uint s1 with
    | .error e => .error e
    | .ok (len, s2) =>
      if tag = BITCOIN_TAG then
        match read_uint s2 with
        | .error e => .error e
        | .ok (height, s3) => .ok (.bitcoin height, s3)
      else if tag = PENDING_TAG then
        match read_bytes 0 MAX_URI_LEN s2 with
        | .error e => .error e
        | .ok (uriBytes, s3) =>
          match utf8Decode uriBytes with
          | none => .error .utf8Error
          | some uri =>
            match uri.find? (fun c => ! isUriChar c) with
            | some c => .error (.invalidUriChar c)
            | none => .ok (.pending uri, s3)
      else
        match read_fixed_bytes len s2 with
        | .error e => .error e
        | .ok (data, s3) => .ok (.unknown tag data, s3)

/-- `Attestation::serialize`: the nested-blob pattern writes the inner body
into a buffer and emits it length-prefixed. -/
def Attestation.serialize : Attestation → List Nat
  | .bitcoin height => BITCOIN_TAG ++ write_bytes (write_uint height)
  | .pending uri => PENDING_TAG ++ write_bytes (write_bytes (utf8Encode uri))
  | .unknown tag data => tag ++ write_bytes data

/-- `DigestType` of `src/ots/digest.rs`. -/
inductive DigestType where
  | sha1
  | sha256
  | ripemd160
deriving DecidableEq, Repr

/-- `DigestType::from_tag`. -/
def DigestType.from_tag (tag : Nat) : Except OtsError DigestType :=
  if tag = 0x02 then .ok .sha1
  else if tag = 0x03 then .ok .ripemd160
  else if tag = 0x08 then .ok .sha256
  else .error (.badDigestTag tag)

/-- `DigestType::to_tag`. -/
def DigestType.to_tag : DigestType → Nat
  | .sha1 => 0x02
  | .ripemd160 => 0x03
  | .sha256 => 0x08

/-- `DigestType::digest_len`. -/
def DigestType.digest_len : DigestType → Nat
  | .sha1 | .ripemd160 => 20
  | .sha256 => 32

/-- `StepData` of `src/ots/timestamp.rs`. -/
inductive StepData where
  | fork
  | op (o : Op)
  | attestation (a : Attestation)
deriving DecidableEq, Repr

/-- `Step` of `src/ots/timestamp.rs`: data, output bytes, child list. -/
inductive Step where
  | mk (data : StepData) (output : List Nat) (next : List Step)

/-- Projection to the `data` field of a `Step`. -/
def Step.data : Step → StepData
  | .mk d _ _ => d

/-- Projection to the `output` field of a `Step`. -/
def Step.output : Step → List Nat
  | .mk _ o _ => o

/-- Projection to the `next` field of a `Step`. -/
def Step.next : Step → List Step
  | .mk _ _ n => n

/-- `Timestamp` of `src/ots/timestamp.rs`. -/
structure Timestamp where
  start_digest : List Nat
  first_step : Step

/-- `DetachedTimestampFile` of `src/ots/ser.rs`. -/
structure DetachedTimestampFile where
  digest_type : DigestType
  timestamp : Timestamp

/-- The two mutually recursive control points of
`Timestamp::deserialize_step_recurse`: `step` is an invocation of the
function itself (a tag passed as `Some(tag)` in Rust is modelled by leaving
that byte at the head of the stream), and `forks` is its fork-reading loop
with the children accumulated so far. -/
inductive DCall where
  | step (limit : Nat) (input : List Nat) (s : List Nat)
  | forks (limit : Nat) (input : List Nat) (acc : List Step) (s : List Nat)

/-- `Timestamp::deserialize_step_recurse`, fuel-indexed so that the
definition is structurally recursive; `none` means the fuel ran out (the
top-level wrapper supplies enough fuel for any input, see the fuel bound in
the round-trip lemmas).  `limit` is the semantic `recursion_limit` of the
Rust code, checked on entry of every `step` call. -/
def deserF (H : HashImpl) : Nat → DCall → Option (Except OtsError (Step × List Nat))
  | 0, _ => none
  | fuel + 1, .step limit input s =>
    if limit = 0 then some (.error .stackOverflow)
    else
      match s with
      | [] => some (.error .ioError)
      | tag :: s1 =>
        if tag = 0x00 then
          match Attestation.deserialize s1 with
          | .error e => some (.error e)
          | .ok (attest, s2) =>
            some (.ok (.mk (.attestation attest) input [], s2))
        else if tag = 0xff then
          match deserF H fuel (.step (limit - 1) input s1) with
          | none => none
          | some (.error e) => some (.error e)
          | some (.ok (child, s2)) => deserF H fuel (.forks limit input [child] s2)
        else
          match Op.deserialize_with_tag tag s1 with
          | .error e => some (.error e)
          | .ok (o, s2) =>
            match deserF H fuel (.step (limit - 1) (o.execute H input) s2) with
            | none => none
            | some (.error e) => some (.error e)
            | some (.ok (child, s3)) =>
              some (.ok (.mk (.op o) (o.execute H input) [child], s3))
  | fuel + 1, .forks limit input acc s =>
    match s with
    | [] => some (.error .ioError)
    | b :: s1 =>
      if b = 0xff then
        match deserF H fuel (.step (limit - 1) input s1) with
        | none => none
        | some (.error e) => some (.error e)
        | some (.ok (child, s2)) => deserF H fuel (.forks limit input (acc ++ [child]) s2)
      else
        match deserF H fuel (.step (limit - 1) input (b :: s1)) with
        | none => none
        | some (.error e) => some (.error e)
        | some (.ok (lastChild, s2)) =>
          some (.ok (.mk .fork input (acc ++ [lastChild]), s2))

/-- `Timestamp::deserialize`: run the recursive step decoder from the start
digest with `RECURSION_LIMIT`; the fuel `2 * s.length + 1` is sufficient for
every input, so the default branch is unreachable. -/
def Timestamp.deserialize (H : HashImpl) (digest : List Nat) (s : List Nat) :
    Except OtsError (Timestamp × List Nat) :=
  match deserF H (2 * s.length + 1) (.step RECURSION_LIMIT digest s) with
  | none => .error .ioError
  | some (.error e) => .error e
  | some (.ok (st, s1)) => .ok (⟨digest, st⟩, s1)

mutual

/-- `Timestamp::serialize_step_recurse`.  A `none` result models the panics
of the Rust code: indexing `next[0]` of an Op step with no children, and the
`next.len() - 1` underflow of a Fork step with no children. -/
def serStep : Step → Option (List Nat)
  | .mk .fork _ children => serForkChildren children
  | .mk (.op o) _ children =>
    match children with
    | [] => none
    | c :: _ =>
      match serStep c with
      | none => none
      | some bs => some (o.serialize ++ bs)
  | .mk (.attestation a) _ _ => some (0x00 :: a.serialize)

/-- The fork loop of `Timestamp::serialize_step_recurse`: a `0xff` byte
before every child except the last. -/
def serForkChildren : List Step → Option (List Nat)
  | [] => none
  | [lastChild] => serStep lastChild
  | c :: rest =>
    match serStep c with
    | none => none
    | some bs =>
      match serForkChildren rest with
      | none => none
      | some bss => some (0xff :: bs ++ bss)

end

/-- `Timestamp::serialize`. -/
def Timestamp.serialize (t : Timestamp) : Option (List Nat) :=
  serStep t.first_step

/-- `DetachedTimestampFile::from_reader`: magic, version, digest tag, start
digest, tree, strict EOF. -/
def DetachedTimestampFile.from_reader (H : HashImpl) (s : List Nat) :
    Except OtsError DetachedTimestampFile :=
  match read_magic s with
  | .error e => .error e
  | .ok s1 =>
    match read_version s1 with
    | .error e => .error e
    | .ok s2 =>
      match read_byte s2 with
      | .error e => .error e
      | .ok (b, s3) =>
        match DigestType.from_tag b with
        | .error e => .error e
        | .ok dt =>
          match read_fixed_bytes dt.digest_len s3 with
          | .error e => .error e
          | .ok (digest, s4) =>
            match Timestamp.deserialize H digest s4 with
            | .error e => .error e
            | .ok (ts, s5) =>
              match check_eof s5 with
              | .error e => .error e
              | .ok _ => .ok ⟨dt, ts⟩

/-- `DetachedTimestampFile::to_writer`: the start digest is written by the
container (as fixed bytes), not by the tree encoder. -/
def DetachedTimestampFile.to_writer (f : DetachedTimestampFile) : Option (List Nat) :=
  match f.timestamp.serialize with
  | none => none
  | some tree =>
    some (MAGIC ++ write_uint 1 ++ [f.digest_type.to_tag] ++ f.timestamp.start_digest ++ tree)

/-- `BlockHeader` of `src/verifier.rs`. -/
structure BlockHeader where
  merkle_root : List Nat
  time : Nat

mutual

/-- `find_bitcoin_attestation` of `src/commands/verify.rs`: stop at a Bitcoin
node, taking the first 32 bytes of its output as merkle root (`None` if the
output is shorter than 32 bytes); otherwise search the children in order.
The `as u32` cast of the height is the `% 2 ^ 32`. -/
def find_bitcoin_attestation : Step → Option (List Nat × Nat)
  | .mk (.attestation (.bitcoin height)) output _ =>
    if 32 ≤ output.length then some (output.take 32, height % 2 ^ 32) else none
  | .mk .fork _ children => findInChildren children
  | .mk (.op _) _ children => findInChildren children
  | .mk (.attestation (.pending _)) _ children => findInChildren children
  | .mk (.attestation (.unknown _ _)) _ children => findInChildren children

/-- The child loop of `find_bitcoin_attestation`: first `Some` wins. -/
def findInChildren : List Step → Option (List Nat × Nat)
  | [] => none
  | c :: rest =>
    match find_bitcoin_attestation c with
    | some r => some r
    | none => findInChildren rest

end

/-- Outcome of the verification walk of `verify::execute` (step 4), the part
downstream of the file-hash comparison. -/
inductive VerifyOutcome where
  | success
  | merkleMismatch
  | noBitcoinAttestation
deriving DecidableEq, Repr

/-- The verification walk of `verify::execute` (`src/commands/verify.rs`,
step 4), with the block-verifier capability abstracted as a function from
height to header: find the Bitcoin leaf, compare merkle roots. -/
def verifyWalk (hdr : Nat → BlockHeader) (first : Step) : VerifyOutcome :=
  match find_bitcoin_attestation first with
  | some (mr, height) =>
    if mr = (hdr height).merkle_root then .success else .merkleMismatch
  | none => .noBitcoinAttestation

mutual

/-- Depth-first preorder listing of the nodes of a step tree (first child
first); used to state search order and per-node invariants. -/
def preorder : Step → List Step
  | .mk d o children => .mk d o children :: preorderChildren children

/-- Preorder listing of a forest. -/
def preorderChildren : List Step → List Step
  | [] => []
  | c :: rest => preorder c ++ preorderChildren rest

end

mutual

/-- Height of a step tree: the maximal number of nodes on a root-to-leaf
path. -/
def Step.height : Step → Nat
  | .mk _ _ children => 1 + heightChildren children

/-- Maximal height over a forest (0 for no children). -/
def heightChildren : List Step → Nat
  | [] => 0
  | c :: rest => max c.height (heightChildren rest)

end

/-- The height of a Bitcoin attestation step datum (0 otherwise); used to
phrase what the verification walk extracts. -/
def StepData.btcHeight : StepData → Nat
  | .attestation (.bitcoin h) => h
  | _ => 0

/-- Whether a step is a hit for the verification walk: a Bitcoin attestation
whose output holds at least 32 bytes. -/
def isBtcCandidate (st : Step) : Bool :=
  match st.data with
  | .attestation (.bitcoin _) => 32 ≤ st.output.length
  | _ => false

/-- Whether a step datum is a Bitcoin attestation. -/
def StepData.isBitcoin : StepData → Bool
  | .attestation (.bitcoin _) => true
  | _ => false

/-- Validity of an attestation as enforced by `Attestation::deserialize` and
required for its serialization to round-trip: any Bitcoin height; pending
URIs of whitelisted characters and bounded length; unknown attestations with
an 8-byte tag distinct from the two known tags. -/
def Attestation.valid : Attestation → Prop
  | .bitcoin _ => True
  | .pending uri => uri.length ≤ MAX_URI_LEN ∧ ∀ c ∈ uri, isUriChar c
  | .unknown tag _ => tag.length = TAG_SIZE ∧ tag ≠ BITCOIN_TAG ∧ tag ≠ PENDING_TAG

/-- Payload bounds of an op as enforced by `Op::deserialize_with_tag`. -/
def Op.payloadOk : Op → Prop
  | .append d => 1 ≤ d.length ∧ d.length ≤ MAX_OP_LENGTH
  | .prepend d => 1 ≤ d.length ∧ d.length ≤ MAX_OP_LENGTH
  | _ => True

/-- The node invariants of spec §3, exactly as enumerated there (this is the
formalization of the spec wording, to be compared with `Legal` below): Fork
nodes have ≥ 2 children sharing the fork input and output equal to the
input; Op nodes have exactly one child and output equal to the op applied to
the input; attestation leaves have no children and unchanged output; payload
and URI bounds hold. -/
inductive SpecLegal (H : HashImpl) : List Nat → Step → Prop where
  | attestation (input : List Nat) (a : Attestation) :
      a.valid → SpecLegal H input (.mk (.attestation a) input [])
  | op (input : List Nat) (o : Op) (c : Step) :
      o.payloadOk → SpecLegal H (o.execute H input) c →
      SpecLegal H input (.mk (.op o) (o.execute H input) [c])
  | fork (input : List Nat) (children : List Step) :
      2 ≤ children.length →
      (∀ c ∈ children, SpecLegal H input c) →
      SpecLegal H input (.mk .fork input children)

/-- The invariant actually maintained by the decoder: `SpecLegal` plus the
constraint (implicit in the wire format) that the last child of a Fork is
not itself a Fork — the fork encoding marks the last child by the absence of
a `0xff` prefix, so a trailing nested fork cannot be represented. -/
inductive Legal (H : HashImpl) : List Nat → Step → Prop where
  | attestation (input : List Nat) (a : Attestation) :
      a.valid → Legal H input (.mk (.attestation a) input [])
  | op (input : List Nat) (o : Op) (c : Step) :
      o.payloadOk → Legal H (o.execute H input) c →
      Legal H input (.mk (.op o) (o.execute H input) [c])
  | fork (input : List Nat) (children : List Step) :
      2 ≤ children.length →
      (∀ c ∈ children, Legal H input c) →
      (∀ lc ∈ children.getLast?, lc.data ≠ .fork) →
      Legal H input (.mk .fork input children)

/-- The semantic-execution invariant of decoded trees (spec §8): Op nodes
output the op applied to their input and pass it to their single child; Fork
and attestation nodes leave the input unchanged. -/
inductive SemExec (H : HashImpl) : List Nat → Step → Prop where
  | attestation (input : List Nat) (a : Attestation) (children : List Step) :
      SemExec H input (.mk (.attestation a) input children)
  | op (input : List Nat) (o : Op) (c : Step) :
      SemExec H (o.execute H input) c →
      SemExec H input (.mk (.op o) (o.execute H input) [c])
  | fork (input : List Nat) (children : List Step) :
      (∀ c ∈ children, SemExec H input c) →
      SemExec H input (.mk .fork input children)

/-- The op/attestation chain used for the recursion-limit boundary cases:
`chainTree H input n` is `n` nested SHA-256 op steps ending in a Bitcoin
attestation, `n + 1` nodes in total. -/
def chainTree (H : HashImpl) (input : List Nat) : Nat → Step
  | 0 => .mk (.attestation (.bitcoin 42)) input []
  | n + 1 => .mk (.op .sha256) (Op.execute H .sha256 input)
      [chainTree H (Op.execute H .sha256 input) n]

/-- A proof-file byte string whose version varint is the non-minimal two-byte
encoding `81 00` of the value 1; `from_reader` accepts it, since `read_uint`
imposes no minimal-encoding requirement. -/
def nonCanonicalFileBytes : List Nat :=
  MAGIC ++ [0x81, 0x00] ++ [0x08] ++ List.replicate 32 0x00 ++
    ([0x00] ++ BITCOIN_TAG ++ [0x01, 0x00])

/-- The value `from_reader` parses from `nonCanonicalFileBytes`. -/
def nonCanonicalDecoded : DetachedTimestampFile :=
  ⟨.sha256, ⟨List.replicate 32 0x00,
    .mk (.attestation (.bitcoin 0)) (List.replicate 32 0x00) []⟩⟩

/-- A timestamp whose root Fork has a Fork as its last child.  It satisfies
the per-node invariants of the spec, but the fork wire encoding cannot mark
a trailing nested fork, so its serialization decodes to the flattened
three-way fork. -/
def nestedForkTimestamp : Timestamp :=
  ⟨[0x09],
    .mk .fork [0x09]
      [.mk (.attestation (.bitcoin 1)) [0x09] [],
       .mk .fork [0x09]
         [.mk (.attestation (.bitcoin 2)) [0x09] [],
          .mk (.attestation (.bitcoin 3)) [0x09] []]]⟩

/-! ## Codec lemmas -/

theorem land_shiftLeft_split (n shift : Nat) :
    ((n &&& 127) <<< shift) ||| ((n >>> 7) <<< (shift + 7)) = n <<< shift := by
  apply Nat.eq_of_testBit_eq
  intro i
  simp only [Nat.testBit_lor, Nat.testBit_shiftLeft, Nat.testBit_shiftRight, Nat.testBit_land,
    show (127 : Nat) = 2 ^ 7 - 1 from rfl, Nat.testBit_two_pow_sub_one, ge_iff_le]
  rcases Nat.lt_or_ge i shift with h | h
  · have h1 : ¬ shift ≤ i := by omega
    have h2 : ¬ shift + 7 ≤ i := by omega
    simp [h1, h2]
  · rcases Nat.lt_or_ge i (shift + 7) with h' | h'
    · have h2 : ¬ shift + 7 ≤ i := by omega
      have h3 : i - shift < 7 := by omega
      simp [h, h2, h3]
    · have h3 : ¬ i - shift < 7 := by omega
      have h4 : 7 + (i - (shift + 7)) = i - shift := by omega
      simp [h, h', h3, h4]

theorem byte_cont_and_127 (n : Nat) : (((n % 256) ||| 128) &&& 127) = n &&& 127 := by
  apply Nat.eq_of_testBit_eq
  intro i
  simp only [Nat.testBit_land, Nat.testBit_lor, show (256 : Nat) = 2 ^ 8 from rfl,
    show (128 : Nat) = 2 ^ 7 from rfl, show (127 : Nat) = 2 ^ 7 - 1 from rfl,
    Nat.testBit_mod_two_pow, Nat.testBit_two_pow, Nat.testBit_two_pow_sub_one]
  rcases Nat.lt_or_ge i 7 with h | h
  · have h1 : i < 8 := by omega
    have h2 : ¬ (7 = i) := by omega
    simp [h, h1, h2]
  · have h3 : ¬ i < 7 := by omega
    simp [h3]

theorem byte_cont_and_128 (n : Nat) : (((n % 256) ||| 128) &&& 128) = 128 := by
  apply Nat.eq_of_testBit_eq
  intro i
  simp only [Nat.testBit_land, Nat.testBit_lor, show (128 : Nat) = 2 ^ 7 from rfl,
    Nat.testBit_two_pow]
  cases (decide (7 = i)) <;> simp

theorem small_and_128 (n : Nat) (h : n < 128) : n &&& 128 = 0 := by
  apply Nat.eq_of_testBit_eq
  intro i
  simp only [Nat.testBit_land, show (128 : Nat) = 2 ^ 7 from rfl, Nat.testBit_two_pow,
    Nat.zero_testBit]
  rcases eq_or_ne i 7 with rfl | hne
  · have h7 : n.testBit 7 = false := Nat.testBit_lt_two_pow h
    simp [h7]
  · have h7 : ¬ (7 = i) := fun hh => hne hh.symm
    simp [h7]

theorem small_and_127 (n : Nat) (h : n < 128) : n &&& 127 = n := by
  rw [show (127 : Nat) = 2 ^ 7 - 1 from rfl, Nat.and_pow_two_sub_one_eq_mod]
  exact Nat.mod_eq_of_lt h

theorem read_uint_go_write_uint_go :
    ∀ n, n ≠ 0 → ∀ shift acc rest,
      read_uint_go (write_uint_go n ++ rest) acc shift = .ok (acc ||| (n <<< shift), rest) := by
  intro n
  induction n using Nat.strong_induction_on with
  | _ n ih =>
    intro hn shift acc rest
    rw [write_uint_go, if_neg hn]
    by_cases h127 : 0x7f < n
    · rw [if_pos h127]
      have hd : n >>> 7 < n := by
        rw [Nat.shiftRight_eq_div_pow]
        exact Nat.div_lt_self (by omega) (by norm_num)
      have hz : n >>> 7 ≠ 0 := by
        rw [Nat.shiftRight_eq_div_pow]
        have h1 : (1 : Nat) ≤ n / 2 ^ 7 := (Nat.one_le_div_iff (by norm_num)).mpr (by omega)
        omega
      simp only [List.cons_append, read_uint_go, byte_cont_and_127, byte_cont_and_128,
        List.append_eq]
      rw [if_neg (by norm_num), ih (n >>> 7) hd hz (shift + 7) (acc ||| ((n &&& 127) <<< shift))
        rest, Nat.lor_assoc, land_shiftLeft_split]
    · rw [if_neg h127]
      simp only [List.cons_append, read_uint_go, small_and_127 n (by omega),
        small_and_128 n (by omega), List.append_eq]
      simp

theorem read_uint_write_uint (n : Nat) (rest : List Nat) :
    read_uint (write_uint n ++ rest) = .ok (n, rest) := by
  by_cases hn : n = 0
  · subst hn; rfl
  · rw [read_uint, write_uint, if_neg hn, read_uint_go_write_uint_go n hn 0 0 rest,
      Nat.zero_or, Nat.shiftLeft_zero]

theorem read_fixed_bytes_exact (a rest : List Nat) :
    read_fixed_bytes a.length (a ++ rest) = .ok (a, rest) := by
  rw [read_fixed_bytes, if_pos (by simp), List.take_left, List.drop_left]

theorem read_fixed_bytes_ok {n : Nat} {s d s' : List Nat}
    (h : read_fixed_bytes n s = .ok (d, s')) : d.length = n ∧ s = d ++ s' := by
  rw [read_fixed_bytes] at h
  split at h
  · rename_i hle
    injection h with h'
    obtain ⟨rfl, rfl⟩ : s.take n = d ∧ s.drop n = s' := by
      constructor <;> [exact congrArg Prod.fst h'; exact congrArg Prod.snd h']
    exact ⟨List.length_take_of_le hle, (List.take_append_drop n s).symm⟩
  · exact absurd h (by simp)

theorem read_bytes_write_bytes (mn mx : Nat) (d rest : List Nat)
    (h1 : mn ≤ d.length) (h2 : d.length ≤ mx) :
    read_bytes mn mx (write_bytes d ++ rest) = .ok (d, rest) := by
  rw [write_bytes, read_bytes, List.append_assoc, read_uint_write_uint]
  show (if d.length < mn ∨ mx < d.length then Except.error (OtsError.badLength mn mx d.length)
       else read_fixed_bytes d.length (d ++ rest)) = Except.ok (d, rest)
  rw [if_neg (by omega), read_fixed_bytes_exact]

theorem read_bytes_ok {mn mx : Nat} {s d s' : List Nat}
    (h : read_bytes mn mx s = .ok (d, s')) : mn ≤ d.length ∧ d.length ≤ mx := by
  rw [read_bytes] at h
  split at h
  · exact absurd h (by simp)
  · rename_i n s1 heq
    split at h
    · exact absurd h (by simp)
    · rename_i hrange
      obtain ⟨hlen, -⟩ := read_fixed_bytes_ok h
      omega

/-! ## UTF-8 lemmas (only the ASCII fragment is needed: URIs that pass the
whitelist are pure ASCII) -/

theorem utf8DecodeF_ascii (bs : List Nat) (h : ∀ b ∈ bs, b ≤ 0x7f) :
    ∀ fuel, bs.length ≤ fuel → utf8DecodeF fuel bs = some bs := by
  induction bs with
  | nil => intro fuel _; cases fuel <;> rfl
  | cons b rest ih =>
    intro fuel hf
    match fuel, hf with
    | fuel + 1, hf =>
      simp only [utf8DecodeF, if_pos (h b (by simp)),
        ih (fun x hx => h x (by simp [hx])) fuel (by simpa using Nat.lt_succ_iff.mp hf)]
      rfl

theorem utf8Decode_ascii (bs : List Nat) (h : ∀ b ∈ bs, b ≤ 0x7f) :
    utf8Decode bs = some bs :=
  utf8DecodeF_ascii bs h bs.length le_rfl

theorem utf8EncodeChar_ascii (c : Nat) (h : c ≤ 0x7f) : utf8EncodeChar c = [c] := by
  rw [utf8EncodeChar, if_pos h]

theorem utf8Encode_ascii (cs : List Nat) (h : ∀ c ∈ cs, c ≤ 0x7f) : utf8Encode cs = cs := by
  induction cs with
  | nil => rfl
  | cons c rest ih =>
    have hr := ih (fun x hx => h x (by simp [hx]))
    simp only [utf8Encode, List.map_cons, List.flatten_cons,
      utf8EncodeChar_ascii c (h c (by simp)), List.singleton_append] at *
    rw [hr]

theorem utf8DecodeF_length :
    ∀ fuel bs cs, utf8DecodeF fuel bs = some cs → cs.length ≤ bs.length := by
  intro fuel
  induction fuel with
  | zero =>
    intro bs cs h
    cases bs with
    | nil => cases h; simp
    | cons b s => exact absurd h (by rw [utf8DecodeF]; simp)
  | succ fuel ih =>
    intro bs cs h
    cases bs with
    | nil => cases h; simp
    | cons b s =>
      simp only [utf8DecodeF] at h
      split at h
      · rcases Option.map_eq_some'.mp h with ⟨cs1, hcs1, rfl⟩
        have := ih s cs1 hcs1
        simp; omega
      · split at h
        · exact absurd h (by simp)
        · split at h
          · split at h
            · rename_i b1 s1
              split at h
              · rcases Option.map_eq_some'.mp h with ⟨cs1, hcs1, rfl⟩
                have := ih s1 cs1 hcs1
                simp; omega
              · exact absurd h (by simp)
            · exact absurd h (by simp)
          · split at h
            · split at h
              · rename_i b1 b2 s1
                split at h
                · rcases Option.map_eq_some'.mp h with ⟨cs1, hcs1, rfl⟩
                  have := ih s1 cs1 hcs1
                  simp; omega
                · exact absurd h (by simp)
              · exact absurd h (by simp)
            · split at h
              · split at h
                · rename_i b1 b2 b3 s1
                  split at h
                  · rcases Option.map_eq_some'.mp h with ⟨cs1, hcs1, rfl⟩
                    have := ih s1 cs1 hcs1
                    simp; omega
                  · exact absurd h (by simp)
                · exact absurd h (by simp)
              · exact absurd h (by simp)

theorem utf8Decode_length {bs cs : List Nat} (h : utf8Decode bs = some cs) :
    cs.length ≤ bs.length :=
  utf8DecodeF_length bs.length bs cs h

theorem utf8DecodeF_ascii_inv :
    ∀ fuel bs cs, utf8DecodeF fuel bs = some cs → (∀ c ∈ cs, c ≤ 0x7f) → bs = cs := by
  intro fuel
  induction fuel with
  | zero =>
    intro bs cs h _
    cases bs with
    | nil => cases h; rfl
    | cons b s => exact absurd h (by rw [utf8DecodeF]; simp)
  | succ fuel ih =>
    intro bs cs h hcs
    cases bs with
    | nil => cases h; rfl
    | cons b s =>
      simp only [utf8DecodeF] at h
      split at h
      · rcases Option.map_eq_some'.mp h with ⟨cs1, hcs1, rfl⟩
        have := ih s cs1 hcs1 (fun c hc => hcs c (by simp [hc]))
        simp [this]
      · rename_i hb1
        split at h
        · exact absurd h (by simp)
        · rename_i hb2
          split at h
          · rename_i hb3
            split at h
            · rename_i b1 s1
              split at h
              · rcases Option.map_eq_some'.mp h with ⟨cs1, hcs1, rfl⟩
                have hch := hcs (utf8Scalar2 b b1) (by simp)
                rw [utf8Scalar2] at hch
                omega
              · exact absurd h (by simp)
            · exact absurd h (by simp)
          · rename_i hb3
            split at h
            · rename_i hb4
              split at h
              · rename_i b1 b2 s1
                split at h
                · rename_i hv
                  rcases Option.map_eq_some'.mp h with ⟨cs1, hcs1, rfl⟩
                  have hch := hcs (utf8Scalar3 b b1 b2) (by simp)
                  rw [utf8Scalar3] at hch
                  rw [utf8Valid3] at hv
                  by_cases he0 : b = 0xe0
                  · rw [if_pos he0] at hv
                    simp only [Bool.and_eq_true, decide_eq_true_eq] at hv
                    omega
                  · omega
                · exact absurd h (by simp)
              · exact absurd h (by simp)
            · rename_i hb4
              split at h
              · rename_i hb5
                split at h
                · rename_i b1 b2 b3 s1
                  split at h
                  · rename_i hv
                    rcases Option.map_eq_some'.mp h with ⟨cs1, hcs1, rfl⟩
                    have hch := hcs (utf8Scalar4 b b1 b2 b3) (by simp)
                    rw [utf8Scalar4] at hch
                    rw [utf8Valid4] at hv
                    by_cases hf0 : b = 0xf0
                    · rw [if_pos hf0] at hv
                      simp only [Bool.and_eq_true, decide_eq_true_eq] at hv
                      omega
                    · omega
                  · exact absurd h (by simp)
                · exact absurd h (by simp)
              · exact absurd h (by simp)

theorem utf8Decode_ascii_inv {bs cs : List Nat} (h : utf8Decode bs = some cs)
    (hcs : ∀ c ∈ cs, c ≤ 0x7f) : bs = cs :=
  utf8DecodeF_ascii_inv bs.length bs cs h hcs

theorem isUriChar_ascii (c : Nat) (h : isUriChar c = true) : c ≤ 0x7f := by
  simp [isUriChar] at h
  omega

/-! ## Attestation lemmas -/

theorem uriChars_ascii {uri : List Nat} (h : ∀ c ∈ uri, isUriChar c) :
    ∀ c ∈ uri, c ≤ 0x7f :=
  fun c hc => isUriChar_ascii c (h c hc)

theorem read_tag_bitcoin (r : List Nat) :
    read_fixed_bytes TAG_SIZE (BITCOIN_TAG ++ r) = .ok (BITCOIN_TAG, r) := by
  rw [show TAG_SIZE = BITCOIN_TAG.length from rfl, read_fixed_bytes_exact]

theorem read_tag_pending (r : List Nat) :
    read_fixed_bytes TAG_SIZE (PENDING_TAG ++ r) = .ok (PENDING_TAG, r) := by
  rw [show TAG_SIZE = PENDING_TAG.length from rfl, read_fixed_bytes_exact]

theorem read_tag_unknown {tag : List Nat} (h : tag.length = TAG_SIZE) (r : List Nat) :
    read_fixed_bytes TAG_SIZE (tag ++ r) = .ok (tag, r) := by
  rw [← h, read_fixed_bytes_exact]

theorem Attestation.serialize_roundtrip (a : Attestation) (ha : a.valid) (rest : List Nat) :
    Attestation.deserialize (a.serialize ++ rest) = .ok (a, rest) := by
  cases a with
  | bitcoin height =>
    rw [Attestation.serialize, List.append_assoc, Attestation.deserialize, read_tag_bitcoin]
    dsimp only
    rw [write_bytes, List.append_assoc, read_uint_write_uint]
    dsimp only
    rw [if_pos rfl, read_uint_write_uint]
  | pending uri =>
    obtain ⟨hlen, hchars⟩ := ha
    have hascii : ∀ c ∈ uri, c ≤ 0x7f := uriChars_ascii hchars
    have henc : utf8Encode uri = uri := utf8Encode_ascii uri hascii
    rw [Attestation.serialize, henc, List.append_assoc, Attestation.deserialize,
      read_tag_pending]
    dsimp only
    rw [write_bytes, List.append_assoc, read_uint_write_uint]
    dsimp only
    rw [if_neg (by decide : PENDING_TAG ≠ BITCOIN_TAG), if_pos rfl,
      read_bytes_write_bytes 0 MAX_URI_LEN uri rest (by omega) hlen]
    dsimp only
    rw [utf8Decode_ascii uri hascii]
    dsimp only
    rw [List.find?_eq_none.mpr (fun c hc => by simp [hchars c hc])]
  | unknown tag data =>
    obtain ⟨hlen8, hne1, hne2⟩ := ha
    rw [Attestation.serialize, List.append_assoc, Attestation.deserialize,
      read_tag_unknown hlen8]
    dsimp only
    rw [write_bytes, List.append_assoc, read_uint_write_uint]
    dsimp only
    rw [if_neg hne1, if_neg hne2, read_fixed_bytes_exact]

theorem Attestation.deserialize_valid {s s' : List Nat} {a : Attestation}
    (h : Attestation.deserialize s = .ok (a, s')) : a.valid := by
  rw [Attestation.deserialize] at h
  split at h
  · exact absurd h (by simp)
  · rename_i tag s1 htag
    split at h
    · exact absurd h (by simp)
    · rename_i len s2 hlen
      split at h
      · split at h
        · exact absurd h (by simp)
        · cases h; trivial
      · rename_i hbtc
        split at h
        · rename_i hpend
          split at h
          · exact absurd h (by simp)
          · rename_i uriBytes s3 hub
            split at h
            · exact absurd h (by simp)
            · rename_i uri hdec
              split at h
              · exact absurd h (by simp)
              · rename_i hfind
                cases h
                refine ⟨?_, ?_⟩
                · have h1 := utf8Decode_length hdec
                  have h2 := (read_bytes_ok hub).2
                  rw [MAX_URI_LEN] at h2 ⊢
                  omega
                · intro c hc
                  have := List.find?_eq_none.mp hfind c hc
                  simpa using this
        · rename_i hpend
          split at h
          · exact absurd h (by simp)
          · rename_i data s3 hdata
            cases h
            exact ⟨(read_fixed_bytes_ok htag).1, hbtc, hpend⟩

/-! ## Op lemmas -/

theorem Op.tag_ne_zero (o : Op) : o.tag ≠ 0x00 := by
  cases o <;> simp [Op.tag]

theorem Op.tag_ne_ff (o : Op) : o.tag ≠ 0xff := by
  cases o <;> simp [Op.tag]

theorem Op.serialize_cons (o : Op) : o.serialize = o.tag :: o.serialize.tail := by
  cases o <;> rfl

theorem Op.deserialize_with_tag_tail (o : Op) (ho : o.payloadOk) (rest : List Nat) :
    Op.deserialize_with_tag o.tag (o.serialize.tail ++ rest) = .ok (o, rest) := by
  cases o with
  | append d =>
    rw [show Op.deserialize_with_tag (Op.tag (.append d)) ((Op.serialize (.append d)).tail ++ rest) =
        (match read_bytes 1 MAX_OP_LENGTH (write_bytes d ++ rest) with
         | .error e => .error e
         | .ok (dd, s1) => .ok (.append dd, s1)) from rfl,
      read_bytes_write_bytes 1 MAX_OP_LENGTH d rest ho.1 ho.2]
  | prepend d =>
    rw [show Op.deserialize_with_tag (Op.tag (.prepend d)) ((Op.serialize (.prepend d)).tail ++ rest) =
        (match read_bytes 1 MAX_OP_LENGTH (write_bytes d ++ rest) with
         | .error e => .error e
         | .ok (dd, s1) => .ok (.prepend dd, s1)) from rfl,
      read_bytes_write_bytes 1 MAX_OP_LENGTH d rest ho.1 ho.2]
  | sha1 => rfl
  | sha256 => rfl
  | ripemd160 => rfl
  | hexlify => rfl
  | reverse => rfl

theorem Op.deserialize_with_tag_ok {tag : Nat} {s : List Nat} {o : Op} {s' : List Nat}
    (h : Op.deserialize_with_tag tag s = .ok (o, s')) : o.payloadOk := by
  rw [Op.deserialize_with_tag] at h
  split at h
  · cases h; trivial
  · split at h
    · cases h; trivial
    · split at h
      · cases h; trivial
      · split at h
        · cases h; trivial
        · split at h
          · cases h; trivial
          · split at h
            · split at h
              · exact absurd h (by simp)
              · rename_i d s1 hd
                cases h
                exact read_bytes_ok hd
            · split at h
              · split at h
                · exact absurd h (by simp)
                · rename_i d s1 hd
                  cases h
                  exact read_bytes_ok hd
              · exact absurd h (by simp)

/-! ## Tree induction and encoder lemmas -/

theorem Step.ind (P : Step → Prop)
    (h : ∀ d o next, (∀ c ∈ next, P c) → P (.mk d o next)) : ∀ st, P st := by
  intro st
  refine Step.rec (motive_1 := P) (motive_2 := fun l => ∀ c ∈ l, P c) ?_ ?_ ?_ st
  · exact fun d o next hnext => h d o next hnext
  · intro c hc
    exact absurd hc (by simp)
  · intro hd tl hP htl c hc
    rcases List.mem_cons.mp hc with rfl | hc
    · exact hP
    · exact htl c hc

theorem serForkChildren_cons_cons (c r : Step) (t : List Step) :
    serForkChildren (c :: r :: t) =
      (match serStep c with
       | none => none
       | some bs =>
         match serForkChildren (r :: t) with
         | none => none
         | some bss => some (0xff :: bs ++ bss)) := by
  rw [serForkChildren]
  simp

theorem serStep_fork (o : List Nat) (children : List Step) :
    serStep (.mk .fork o children) = serForkChildren children := by
  rw [serStep]

theorem serStep_op (o : Op) (out : List Nat) (c : Step) (t : List Step) :
    serStep (.mk (.op o) out (c :: t)) =
      (match serStep c with
       | none => none
       | some bs => some (o.serialize ++ bs)) := by
  rw [serStep]

theorem serStep_attestation (a : Attestation) (out : List Nat) (next : List Step) :
    serStep (.mk (.attestation a) out next) = some (0x00 :: a.serialize) := by
  rw [serStep]

theorem serStep_head_ne_ff {st : Step} {B : List Nat}
    (h : serStep st = some B) (hd : st.data ≠ .fork) :
    ∃ b bs, B = b :: bs ∧ b ≠ 0xff := by
  obtain ⟨d, o, next⟩ := st
  cases d with
  | fork => exact absurd rfl hd
  | op oo =>
    cases next with
    | nil => rw [serStep] at h; cases h
    | cons c t =>
      rw [serStep_op] at h
      split at h
      · cases h
      · rename_i bs hbs
        cases h
        exact ⟨oo.tag, _, by rw [Op.serialize_cons]; rfl, oo.tag_ne_ff⟩
  | attestation a =>
    rw [serStep_attestation] at h
    cases h
    exact ⟨0x00, a.serialize, rfl, by decide⟩

theorem Legal.serStep_total {H : HashImpl} {input : List Nat} {st : Step}
    (hL : Legal H input st) : ∃ B, serStep st = some B := by
  induction hL with
  | attestation input a ha => exact ⟨_, serStep_attestation a input []⟩
  | op input o c ho hc ih =>
    obtain ⟨Bc, hBc⟩ := ih
    exact ⟨o.serialize ++ Bc, by rw [serStep_op, hBc]⟩
  | fork input children hlen hch hlast ih =>
    rw [serStep_fork]
    have : ∀ cs : List Step, cs ≠ [] → (∀ c ∈ cs, ∃ B, serStep c = some B) →
        ∃ B, serForkChildren cs = some B := by
      intro cs
      induction cs with
      | nil => exact fun hne _ => absurd rfl hne
      | cons c rest ihr =>
        intro _ hall
        cases rest with
        | nil =>
          rw [serForkChildren]
          exact hall c (by simp)
        | cons r t =>
          obtain ⟨Bc, hBc⟩ := hall c (by simp)
          obtain ⟨Bs, hBs⟩ := ihr (by simp) (fun x hx => hall x (by simp [hx]))
          exact ⟨0xff :: Bc ++ Bs, by rw [serForkChildren_cons_cons, hBc, hBs]⟩
    exact this children (by rintro rfl; simp at hlen) ih

/-! ## Decode-encode round trip -/

theorem height_mk (d : StepData) (o : List Nat) (next : List Step) :
    Step.height (.mk d o next) = 1 + heightChildren next := by
  rw [Step.height]

theorem heightChildren_cons (c : Step) (t : List Step) :
    heightChildren (c :: t) = max c.height (heightChildren t) := by
  rw [heightChildren]

set_option maxHeartbeats 1000000 in
theorem deserF_serStep {H : HashImpl} {input : List Nat} {st : Step}
    (hL : Legal H input st) :
    ∀ limit B rest f, st.height ≤ limit → serStep st = some B →
      2 * (B.length + rest.length) + 1 ≤ f →
      deserF H f (.step limit input (B ++ rest)) = some (.ok (st, rest)) := by
  induction hL with
  | attestation input a ha =>
    intro limit B rest f hh hser hf
    rw [serStep_attestation] at hser
    obtain rfl := Option.some.inj hser
    have hlim : limit ≠ 0 := by rw [height_mk] at hh; omega
    obtain ⟨f, rfl⟩ : ∃ g, f = g.succ := ⟨f - 1, by omega⟩
    rw [List.cons_append, deserF.eq_3, if_neg hlim, if_pos rfl,
      Attestation.serialize_roundtrip a ha rest]
  | op input o c ho hc ih =>
    intro limit B rest f hh hser hf
    rw [serStep_op] at hser
    split at hser
    · cases hser
    · rename_i Bc hBc
      obtain rfl := Option.some.inj hser
      have hlim : limit ≠ 0 := by rw [height_mk] at hh; omega
      have hhc : c.height ≤ limit - 1 := by
        rw [height_mk, heightChildren_cons] at hh
        have := Nat.le_max_left c.height (heightChildren [])
        omega
      obtain ⟨f, rfl⟩ : ∃ g, f = g.succ := ⟨f - 1, by omega⟩
      have hser1 : 1 ≤ (Op.serialize o).length := by
        rw [Op.serialize_cons]; simp
      have hstream : (o.serialize ++ Bc) ++ rest = o.tag :: (o.serialize.tail ++ (Bc ++ rest)) := by
        rw [Op.serialize_cons]; simp
      rw [hstream, deserF.eq_3, if_neg hlim, if_neg o.tag_ne_zero, if_neg o.tag_ne_ff,
        Op.deserialize_with_tag_tail o ho (Bc ++ rest)]
      dsimp only
      rw [ih (limit - 1) Bc rest f hhc hBc (by simp at hf ⊢; omega)]
  | fork input children hlen hch hlast ih =>
    intro limit B rest f hh hser hf
    have hlim : limit ≠ 0 := by rw [height_mk] at hh; omega
    have hhc : ∀ c ∈ children, c.height ≤ limit - 1 := by
      intro c hcmem
      rw [height_mk] at hh
      have hle : c.height ≤ heightChildren children := by
        clear hh hser hf hch hlast ih hlen
        induction children with
        | nil => cases hcmem
        | cons x t ihx =>
          rw [heightChildren_cons]
          rcases List.mem_cons.mp hcmem with rfl | hm
          · exact Nat.le_max_left _ _
          · exact le_trans (ihx hm) (Nat.le_max_right _ _)
      omega
    -- the fork loop invariant, by induction over the remaining children
    have forks :
        ∀ cs : List Step, cs ≠ [] →
          (∀ c ∈ cs, c ∈ children) →
          (∀ lc, cs.getLast? = some lc → lc.data ≠ .fork) →
          ∀ acc Bs rest f, serForkChildren cs = some Bs →
            2 * (Bs.length + rest.length) + 2 ≤ f →
            deserF H f (.forks limit input acc (Bs ++ rest)) =
              some (.ok (.mk .fork input (acc ++ cs), rest)) := by
      intro cs
      induction cs with
      | nil => exact fun hne => absurd rfl hne
      | cons c rest0 ihcs =>
        intro _ hsub hlast' acc Bs rest f hser' hf'
        cases rest0 with
        | nil =>
          rw [show serForkChildren [c] = serStep c from by rw [serForkChildren]] at hser'
          obtain ⟨b, bs, rfl, hbne⟩ :=
            serStep_head_ne_ff hser' (hlast' c (List.getLast?_singleton c))
          obtain ⟨f, rfl⟩ : ∃ g, f = g.succ := ⟨f - 1, by omega⟩
          rw [List.cons_append, deserF.eq_5, if_neg hbne, ← List.cons_append,
            ih c (hsub c (by simp)) (limit - 1) (b :: bs) rest f (hhc c (hsub c (by simp)))
              hser' (by simp at hf' ⊢; omega)]
        | cons r t =>
          rw [serForkChildren_cons_cons] at hser'
          split at hser'
          · cases hser'
          · rename_i Bc hBc
            split at hser'
            · cases hser'
            · rename_i Bs' hBs'
              obtain rfl := Option.some.inj hser'
              obtain ⟨f, rfl⟩ : ∃ g, f = g.succ := ⟨f - 1, by omega⟩
              rw [List.cons_append, List.cons_append, deserF.eq_5, if_pos rfl, List.append_assoc,
                ih c (hsub c (by simp)) (limit - 1) Bc (Bs' ++ rest) f
                  (hhc c (hsub c (by simp))) hBc (by simp at hf' ⊢; omega)]
              dsimp only
              rw [ihcs (by simp) (fun x hx => hsub x (by simp [hx]))
                (fun lc hlc => hlast' lc (by rw [List.getLast?_cons_cons]; exact hlc))
                (acc ++ [c]) Bs' rest f hBs' (by simp at hf' ⊢; omega),
                List.append_assoc]
              rfl
    -- assemble: children = c1 :: c1' :: cs'
    obtain ⟨c1, cs, rfl⟩ : ∃ c1 cs, children = c1 :: cs := by
      cases children with
      | nil => simp at hlen
      | cons a b => exact ⟨a, b, rfl⟩
    have hcs : cs ≠ [] := by
      rintro rfl; simp at hlen
    rw [serStep_fork] at hser
    obtain ⟨c1', cs', rfl⟩ : ∃ c1' cs', cs = c1' :: cs' := by
      cases cs with
      | nil => exact absurd rfl hcs
      | cons a b => exact ⟨a, b, rfl⟩
    rw [serForkChildren_cons_cons] at hser
    split at hser
    · cases hser
    · rename_i Bc hBc
      split at hser
      · cases hser
      · rename_i Bs hBs
        obtain rfl := Option.some.inj hser
        obtain ⟨f, rfl⟩ : ∃ g, f = g.succ := ⟨f - 1, by omega⟩
        rw [List.cons_append, List.cons_append, deserF.eq_3, if_neg hlim, if_pos rfl, List.append_assoc,
          ih c1 (by simp) (limit - 1) Bc (Bs ++ rest) f (hhc c1 (by simp)) hBc
            (by simp at hf ⊢; omega)]
        dsimp only
        rw [forks (c1' :: cs') (by simp) (fun x hx => by simp [hx])
          (fun lc hlc => hlast lc (by rw [List.getLast?_cons_cons]; exact hlc))
          [c1] Bs rest f hBs (by simp at hf ⊢; omega)]
        rfl

/-! ## Decoder postcondition: decoded trees are legal and depth-bounded -/

theorem heightChildren_nil : heightChildren [] = 0 := by rw [heightChildren]

set_option maxHeartbeats 1000000 in
theorem deserF_post (H : HashImpl) :
    ∀ f,
      (∀ limit input s st s',
        deserF H f (.step limit input s) = some (.ok (st, s')) →
        (Legal H input st ∧ st.height ≤ limit) ∧
          (st.data = .fork → ∃ s1, s = 0xff :: s1)) ∧
      (∀ limit input acc s st s',
        deserF H f (.forks limit input acc s) = some (.ok (st, s')) →
        (∀ c ∈ acc, Legal H input c ∧ c.height ≤ limit - 1) →
        1 ≤ acc.length → limit ≠ 0 →
        Legal H input st ∧ st.height ≤ limit) := by
  intro f
  induction f with
  | zero =>
    constructor
    · intro limit input s st s' h
      rw [deserF.eq_1] at h
      cases h
    · intro limit input acc s st s' h
      rw [deserF.eq_1] at h
      cases h
  | succ f ih =>
    obtain ⟨ihstep, ihforks⟩ := ih
    constructor
    · intro limit input s st s' h
      cases s with
      | nil =>
        rw [deserF.eq_2] at h
        split at h <;> cases h
      | cons b s1 =>
        rw [deserF.eq_3] at h
        split at h
        · cases h
        · rename_i hlim
          split at h
          · rename_i hb0
            split at h
            · cases h
            · rename_i a s2 ha
              obtain ⟨rfl, rfl⟩ : st = .mk (.attestation a) input [] ∧ s2 = s' := by
                cases h; exact ⟨rfl, rfl⟩
              refine ⟨⟨Legal.attestation input a (Attestation.deserialize_valid ha), ?_⟩, ?_⟩
              · rw [height_mk, heightChildren_nil]; omega
              · intro hd; cases hd
          · rename_i hb0
            split at h
            · rename_i hbff
              -- fork branch
              split at h
              · cases h
              · cases h
              · rename_i child s2 hchild
                have hc := (ihstep (limit - 1) input s1 child s2 hchild).1
                have := ihforks limit input [child] s2 st s' h
                  (by intro c hc'; simp at hc'; subst hc'; exact hc) (by simp) hlim
                exact ⟨this, fun _ => ⟨s1, by rw [hbff]⟩⟩
            · rename_i hbff
              split at h
              · cases h
              · rename_i o s2 hop
                split at h
                · cases h
                · cases h
                · rename_i child s3 hchild
                  obtain ⟨rfl, rfl⟩ :
                      st = .mk (.op o) (o.execute H input) [child] ∧ s3 = s' := by
                    cases h; exact ⟨rfl, rfl⟩
                  have hc := (ihstep (limit - 1) (o.execute H input) s2 child s3 hchild).1
                  refine ⟨⟨Legal.op input o child (Op.deserialize_with_tag_ok hop) hc.1, ?_⟩, ?_⟩
                  · rw [height_mk, heightChildren_cons, heightChildren_nil]
                    have := hc.2
                    omega
                  · intro hd; cases hd
    · intro limit input acc s st s' h hacc hlen hlim
      cases s with
      | nil =>
        rw [deserF.eq_4] at h
        cases h
      | cons b s1 =>
        rw [deserF.eq_5] at h
        split at h
        · rename_i hbff
          split at h
          · cases h
          · cases h
          · rename_i child s2 hchild
            have hc := (ihstep (limit - 1) input s1 child s2 hchild).1
            exact ihforks limit input (acc ++ [child]) s2 st s' h
              (by
                intro c hc'
                rcases List.mem_append.mp hc' with hm | hm
                · exact hacc c hm
                · simp at hm; subst hm; exact hc)
              (by simp) hlim
        · rename_i hbff
          split at h
          · cases h
          · cases h
          · rename_i lastChild s2 hlast
            obtain ⟨rfl, rfl⟩ :
                st = .mk .fork input (acc ++ [lastChild]) ∧ s2 = s' := by
              cases h; exact ⟨rfl, rfl⟩
            have hres := ihstep (limit - 1) input (b :: s1) lastChild s2 hlast
            have hlc := hres.1
            have hnf : lastChild.data ≠ .fork := by
              intro hd
              obtain ⟨s1', heq⟩ := hres.2 hd
              have : b = 0xff := by
                have := congrArg (List.headI) heq
                simpa using this
              exact hbff this
            refine ⟨Legal.fork input (acc ++ [lastChild]) (by simp; omega)
              (by
                intro c hc'
                rcases List.mem_append.mp hc' with hm | hm
                · exact (hacc c hm).1
                · simp at hm; subst hm; exact hlc.1)
              (by
                intro lc hlc'
                rw [List.getLast?_concat] at hlc'
                cases hlc'
                exact hnf), ?_⟩
            rw [height_mk]
            have hhc : heightChildren (acc ++ [lastChild]) ≤ limit - 1 := by
              have hstep : ∀ cs : List Step, (∀ c ∈ cs, c.height ≤ limit - 1) →
                  heightChildren cs ≤ limit - 1 := by
                intro cs
                induction cs with
                | nil => intro _; rw [heightChildren_nil]; omega
                | cons x t ihx =>
                  intro hall
                  rw [heightChildren_cons]
                  exact max_le (hall x (by simp)) (ihx (fun y hy => hall y (by simp [hy])))
              refine hstep _ ?_
              intro c hc'
              rcases List.mem_append.mp hc' with hm | hm
              · exact (hacc c hm).2
              · simp at hm; subst hm; exact hlc.2
            omega

/-! ## Wrapper-level round trips -/

theorem Timestamp.deserialize_serialize {H : HashImpl} (t : Timestamp)
    (hL : Legal H t.start_digest t.first_step)
    (hh : t.first_step.height ≤ RECURSION_LIMIT) :
    ∃ B, t.serialize = some B ∧ Timestamp.deserialize H t.start_digest B = .ok (t, []) := by
  obtain ⟨B, hB⟩ := hL.serStep_total
  refine ⟨B, hB, ?_⟩
  rw [Timestamp.deserialize]
  have hmain := deserF_serStep hL RECURSION_LIMIT B [] (2 * B.length + 1) hh hB (by simp)
  rw [List.append_nil] at hmain
  rw [hmain]

theorem Timestamp.deserialize_post {H : HashImpl} {digest s : List Nat} {ts : Timestamp}
    {rest : List Nat} (h : Timestamp.deserialize H digest s = .ok (ts, rest)) :
    ts.start_digest = digest ∧ Legal H digest ts.first_step ∧
      ts.first_step.height ≤ RECURSION_LIMIT := by
  rw [Timestamp.deserialize] at h
  split at h
  · cases h
  · cases h
  · rename_i st s1 hst
    have hpost := ((deserF_post H (2 * s.length + 1)).1 RECURSION_LIMIT digest s st s1 hst).1
    cases h
    exact ⟨rfl, hpost.1, hpost.2⟩

theorem read_magic_exact (X : List Nat) : read_magic (MAGIC ++ X) = .ok X := by
  rw [read_magic, read_fixed_bytes_exact]
  simp

theorem read_version_exact (X : List Nat) : read_version (write_uint 1 ++ X) = .ok X := by
  rw [read_version, read_uint_write_uint]
  simp

theorem DigestType.from_tag_to_tag (dt : DigestType) :
    DigestType.from_tag dt.to_tag = .ok dt := by
  cases dt <;> rfl

theorem from_reader_post {H : HashImpl} {B : List Nat} {F : DetachedTimestampFile}
    (h : DetachedTimestampFile.from_reader H B = .ok F) :
    Legal H F.timestamp.start_digest F.timestamp.first_step ∧
      F.timestamp.first_step.height ≤ RECURSION_LIMIT ∧
      F.timestamp.start_digest.length = F.digest_type.digest_len := by
  rw [DetachedTimestampFile.from_reader] at h
  split at h
  · cases h
  · rename_i s1 hmagic
    split at h
    · cases h
    · rename_i s2 hver
      split at h
      · cases h
      · rename_i b s3 hbyte
        split at h
        · cases h
        · rename_i dt hdt
          split at h
          · cases h
          · rename_i digest s4 hdig
            split at h
            · cases h
            · rename_i ts s5 hts
              split at h
              · cases h
              · rename_i u heof
                obtain rfl : F = ⟨dt, ts⟩ := by cases h; rfl
                obtain ⟨hsd, hleg, hht⟩ := Timestamp.deserialize_post hts
                refine ⟨by rw [hsd]; exact hleg, hht, ?_⟩
                rw [hsd, (read_fixed_bytes_ok hdig).1]

theorem from_reader_canonical {H : HashImpl} (F : DetachedTimestampFile)
    (hL : Legal H F.timestamp.start_digest F.timestamp.first_step)
    (hh : F.timestamp.first_step.height ≤ RECURSION_LIMIT)
    (hdl : F.timestamp.start_digest.length = F.digest_type.digest_len) :
    ∃ B', F.to_writer = some B' ∧ DetachedTimestampFile.from_reader H B' = .ok F := by
  obtain ⟨tree, htree, hdes⟩ := Timestamp.deserialize_serialize F.timestamp hL hh
  refine ⟨MAGIC ++ write_uint 1 ++ [F.digest_type.to_tag] ++ F.timestamp.start_digest ++ tree,
    ?_, ?_⟩
  · rw [DetachedTimestampFile.to_writer, htree]
  · rw [DetachedTimestampFile.from_reader]
    rw [List.append_assoc, List.append_assoc, List.append_assoc, read_magic_exact]
    dsimp only
    rw [read_version_exact]
    dsimp only
    rw [show read_byte ([F.digest_type.to_tag] ++ (F.timestamp.start_digest ++ tree)) =
      .ok (F.digest_type.to_tag, F.timestamp.start_digest ++ tree) from rfl]
    dsimp only
    rw [DigestType.from_tag_to_tag]
    dsimp only
    rw [← hdl, read_fixed_bytes_exact]
    dsimp only
    rw [hdes]
    rfl

/-! ## StackOverflow on too-deep trees -/

theorem heightChildren_exists {cs : List Step} {k : Nat} (h : k < heightChildren cs) :
    ∃ c ∈ cs, k < c.height := by
  induction cs with
  | nil => rw [heightChildren_nil] at h; omega
  | cons c t ih =>
    rw [heightChildren_cons] at h
    rcases Nat.lt_or_ge k c.height with hlt | hge
    · exact ⟨c, by simp, hlt⟩
    · have : k < heightChildren t := by omega
      obtain ⟨x, hx, hxh⟩ := ih this
      exact ⟨x, by simp [hx], hxh⟩

set_option maxHeartbeats 1000000 in
theorem deserF_serStep_overflow {H : HashImpl} {input : List Nat} {st : Step}
    (hL : Legal H input st) :
    ∀ limit B rest f, limit < st.height → serStep st = some B →
      2 * (B.length + rest.length) + 1 ≤ f →
      deserF H f (.step limit input (B ++ rest)) = some (.error .stackOverflow) := by
  induction hL with
  | attestation input a ha =>
    intro limit B rest f hh hser hf
    rw [serStep_attestation] at hser
    obtain rfl := Option.some.inj hser
    have hlim : limit = 0 := by rw [height_mk, heightChildren_nil] at hh; omega
    obtain ⟨f, rfl⟩ : ∃ g, f = g.succ := ⟨f - 1, by omega⟩
    rw [List.cons_append, deserF.eq_3, if_pos hlim]
  | op input o c ho hc ih =>
    intro limit B rest f hh hser hf
    rw [serStep_op] at hser
    split at hser
    · cases hser
    · rename_i Bc hBc
      obtain rfl := Option.some.inj hser
      obtain ⟨f, rfl⟩ : ∃ g, f = g.succ := ⟨f - 1, by omega⟩
      have hstream : (o.serialize ++ Bc) ++ rest = o.tag :: (o.serialize.tail ++ (Bc ++ rest)) := by
        rw [Op.serialize_cons]; simp
      by_cases hlim : limit = 0
      · rw [hstream, deserF.eq_3, if_pos hlim]
      · have hhc : limit - 1 < c.height := by
          rw [height_mk, heightChildren_cons, heightChildren_nil] at hh
          omega
        have hser1 : 1 ≤ (Op.serialize o).length := by
          rw [Op.serialize_cons]; simp
        rw [hstream, deserF.eq_3, if_neg hlim, if_neg o.tag_ne_zero, if_neg o.tag_ne_ff,
          Op.deserialize_with_tag_tail o ho (Bc ++ rest)]
        dsimp only
        rw [ih (limit - 1) Bc rest f hhc hBc (by simp at hf ⊢; omega)]
  | fork input children hlen hch hlast ih =>
    intro limit B rest f hh hser hf
    obtain ⟨c1, cs, rfl⟩ : ∃ c1 cs, children = c1 :: cs := by
      cases children with
      | nil => simp at hlen
      | cons a b => exact ⟨a, b, rfl⟩
    obtain ⟨c1', cs', rfl⟩ : ∃ c1' cs', cs = c1' :: cs' := by
      cases cs with
      | nil => simp at hlen
      | cons a b => exact ⟨a, b, rfl⟩
    rw [serStep_fork, serForkChildren_cons_cons] at hser
    split at hser
    · cases hser
    · rename_i Bc hBc
      split at hser
      · cases hser
      · rename_i Bs hBs
        obtain rfl := Option.some.inj hser
        obtain ⟨f, rfl⟩ : ∃ g, f = g.succ := ⟨f - 1, by omega⟩
        by_cases hlim : limit = 0
        · rw [List.cons_append, List.cons_append, deserF.eq_3, if_pos hlim]
        · -- some child exceeds limit - 1
          have hex : ∃ c ∈ c1 :: c1' :: cs', limit - 1 < c.height := by
            rw [height_mk] at hh
            exact heightChildren_exists (k := limit - 1) (by omega)
          -- loop lemma: if some remaining child overflows, the loop errors
          have forks :
              ∀ cs : List Step, cs ≠ [] →
                (∀ c ∈ cs, c ∈ c1 :: c1' :: cs') →
                (∀ lc, cs.getLast? = some lc → lc.data ≠ .fork) →
                ∀ acc Bs rest f, serForkChildren cs = some Bs →
                  (∃ c ∈ cs, limit - 1 < c.height) →
                  2 * (Bs.length + rest.length) + 2 ≤ f →
                  deserF H f (.forks limit input acc (Bs ++ rest)) =
                    some (.error .stackOverflow) := by
            intro cs
            induction cs with
            | nil => exact fun hne => absurd rfl hne
            | cons c rest0 ihcs =>
              intro _ hsub hlast' acc Bs rest f hser' hex' hf'
              cases rest0 with
              | nil =>
                rw [show serForkChildren [c] = serStep c from by rw [serForkChildren]] at hser'
                have hco : limit - 1 < c.height := by
                  obtain ⟨x, hx, hxh⟩ := hex'
                  simp at hx
                  subst hx
                  exact hxh
                obtain ⟨b, bs, rfl, hbne⟩ := serStep_head_ne_ff hser'
                  (hlast' c (List.getLast?_singleton c))
                obtain ⟨f, rfl⟩ : ∃ g, f = g.succ := ⟨f - 1, by omega⟩
                rw [List.cons_append, deserF.eq_5, if_neg hbne, ← List.cons_append,
                  ih c (hsub c (by simp)) (limit - 1) (b :: bs) rest f hco hser'
                    (by simp at hf' ⊢; omega)]
              | cons r t =>
                rw [serForkChildren_cons_cons] at hser'
                split at hser'
                · cases hser'
                · rename_i Bc' hBc'
                  split at hser'
                  · cases hser'
                  · rename_i Bs' hBs'
                    obtain rfl := Option.some.inj hser'
                    obtain ⟨f, rfl⟩ : ∃ g, f = g.succ := ⟨f - 1, by omega⟩
                    by_cases hco : limit - 1 < c.height
                    · rw [List.cons_append, List.cons_append, deserF.eq_5, if_pos rfl,
                        List.append_assoc,
                        ih c (hsub c (by simp)) (limit - 1) Bc' (Bs' ++ rest) f hco hBc'
                          (by simp at hf' ⊢; omega)]
                    · have hok := deserF_serStep (hch c (hsub c (by simp))) (limit - 1) Bc'
                        (Bs' ++ rest) f (by omega) hBc' (by simp at hf' ⊢; omega)
                      rw [List.cons_append, List.cons_append, deserF.eq_5, if_pos rfl,
                        List.append_assoc, hok]
                      dsimp only
                      refine ihcs (by simp) (fun x hx => hsub x (by simp [hx]))
                        (fun lc hlc => hlast' lc (by rw [List.getLast?_cons_cons]; exact hlc))
                        (acc ++ [c]) Bs' rest f hBs' ?_ (by simp at hf' ⊢; omega)
                      obtain ⟨x, hx, hxh⟩ := hex'
                      rcases List.mem_cons.mp hx with rfl | hx'
                      · exact absurd hxh hco
                      · exact ⟨x, hx', hxh⟩
          by_cases hco : limit - 1 < c1.height
          · rw [List.cons_append, List.cons_append, deserF.eq_3, if_neg hlim, if_pos rfl,
              List.append_assoc,
              ih c1 (by simp) (limit - 1) Bc (Bs ++ rest) f hco hBc (by simp at hf ⊢; omega)]
            rfl
          · have hok := deserF_serStep (hch c1 (by simp)) (limit - 1) Bc (Bs ++ rest) f
              (by omega) hBc (by simp at hf ⊢; omega)
            rw [List.cons_append, List.cons_append, deserF.eq_3, if_neg hlim, if_pos rfl,
              List.append_assoc, hok]
            dsimp only
            refine forks (c1' :: cs') (by simp) (fun x hx => by simp [hx])
              (fun lc hlc => hlast lc (by rw [List.getLast?_cons_cons]; exact hlc))
              [c1] Bs rest f hBs ?_ (by simp at hf ⊢; omega)
            obtain ⟨x, hx, hxh⟩ := hex
            rcases List.mem_cons.mp hx with rfl | hx'
            · exact absurd hxh hco
            · exact ⟨x, hx', hxh⟩

/-! ## Chains of ops, semantic execution, preorder facts -/

theorem chainTree_legal (H : HashImpl) (input : List Nat) (n : Nat) :
    Legal H input (chainTree H input n) := by
  induction n generalizing input with
  | zero => exact Legal.attestation input _ trivial
  | succ n ih => exact Legal.op input .sha256 _ trivial (ih _)

theorem chainTree_height (H : HashImpl) (input : List Nat) (n : Nat) :
    (chainTree H input n).height = n + 1 := by
  induction n generalizing input with
  | zero => rw [chainTree, height_mk, heightChildren_nil]
  | succ n ih =>
    rw [chainTree, height_mk, heightChildren_cons, heightChildren_nil, ih]
    omega

theorem chainTree_ser (H : HashImpl) (input : List Nat) (n : Nat) :
    serStep (chainTree H input n) =
      some (List.replicate n 0x08 ++ (0x00 :: (BITCOIN_TAG ++ [1, 42]))) := by
  induction n generalizing input with
  | zero =>
    rw [chainTree, serStep_attestation]
    simp [Attestation.serialize, write_bytes, write_uint, write_uint_go]
  | succ n ih =>
    rw [chainTree, serStep_op, ih _]
    rw [show Op.serialize .sha256 = [0x08] from rfl]
    simp [List.replicate_succ]

theorem Timestamp.deserialize_overflow {H : HashImpl} {input : List Nat} {st : Step}
    {B : List Nat} (hL : Legal H input st) (hh : RECURSION_LIMIT < st.height)
    (hB : serStep st = some B) :
    Timestamp.deserialize H input B = .error .stackOverflow := by
  rw [Timestamp.deserialize]
  have := deserF_serStep_overflow hL RECURSION_LIMIT B [] (2 * B.length + 1) hh hB (by simp)
  rw [List.append_nil] at this
  rw [this]

theorem Legal.semExec {H : HashImpl} {input : List Nat} {st : Step}
    (h : Legal H input st) : SemExec H input st := by
  induction h with
  | attestation input a ha => exact SemExec.attestation input a []
  | op input o c ho hc ih => exact SemExec.op input o c ih
  | fork input children hlen hch hlast ih => exact SemExec.fork input children ih

theorem preorder_mk (d : StepData) (o : List Nat) (children : List Step) :
    preorder (.mk d o children) = .mk d o children :: preorderChildren children := by
  rw [preorder]

theorem preorderChildren_nil : preorderChildren [] = [] := by rw [preorderChildren]

theorem preorderChildren_cons (c : Step) (t : List Step) :
    preorderChildren (c :: t) = preorder c ++ preorderChildren t := by
  rw [preorderChildren]

theorem mem_preorderChildren {x : Step} {cs : List Step} :
    x ∈ preorderChildren cs ↔ ∃ c ∈ cs, x ∈ preorder c := by
  induction cs with
  | nil => simp [preorderChildren_nil]
  | cons c t ih => simp [preorderChildren_cons, ih]

theorem Legal.fork_arity {H : HashImpl} {input : List Nat} {st : Step}
    (h : Legal H input st) :
    ∀ x ∈ preorder st, x.data = .fork → 2 ≤ x.next.length := by
  induction h with
  | attestation input a ha =>
    intro x hx hd
    rw [preorder_mk, preorderChildren_nil] at hx
    simp at hx
    subst hx
    cases hd
  | op input o c ho hc ih =>
    intro x hx hd
    rw [preorder_mk, preorderChildren_cons, preorderChildren_nil] at hx
    simp at hx
    rcases hx with rfl | hx
    · cases hd
    · exact ih x hx hd
  | fork input children hlen hch hlast ih =>
    intro x hx hd
    rw [preorder_mk] at hx
    rcases List.mem_cons.mp hx with rfl | hx
    · rw [Step.next]; exact hlen
    · obtain ⟨c, hc, hxc⟩ := mem_preorderChildren.mp hx
      exact ih c hc x hxc hd

/-! ## Verification walk: the search is the first preorder hit -/

theorem findInChildren_nil : findInChildren [] = none := by rw [findInChildren]

theorem findInChildren_cons (c : Step) (t : List Step) :
    findInChildren (c :: t) =
      (match find_bitcoin_attestation c with
       | some r => some r
       | none => findInChildren t) := by
  rw [findInChildren]

theorem findInChildren_eq_preorder
    (f : Step → List Nat × Nat) (p : Step → Bool) :
    ∀ cs : List Step,
      (∀ c ∈ cs, find_bitcoin_attestation c = ((preorder c).find? p).map f) →
      findInChildren cs = ((preorderChildren cs).find? p).map f := by
  intro cs
  induction cs with
  | nil => intro _; rw [findInChildren_nil, preorderChildren_nil]; rfl
  | cons c t ih =>
    intro hall
    rw [findInChildren_cons, preorderChildren_cons, List.find?_append,
      hall c (by simp)]
    cases hfc : (preorder c).find? p with
    | some x => simp
    | none =>
      simp only [Option.map_none, Option.none_or]
      exact ih (fun y hy => hall y (by simp [hy]))

theorem find_bitcoin_eq_preorder :
    ∀ st : Step, (∀ x ∈ preorder st, x.data.isBitcoin = true → x.next = []) →
    find_bitcoin_attestation st =
      ((preorder st).find? isBtcCandidate).map
        (fun x => (x.output.take 32, x.data.btcHeight % 2 ^ 32)) := by
  refine Step.ind (fun st => (∀ x ∈ preorder st, x.data.isBitcoin = true → x.next = []) →
    find_bitcoin_attestation st =
      ((preorder st).find? isBtcCandidate).map
        (fun x => (x.output.take 32, x.data.btcHeight % 2 ^ 32))) ?_
  intro d o children ihc hleaf
  have hchildren : ∀ c ∈ children,
      find_bitcoin_attestation c = ((preorder c).find? isBtcCandidate).map
        (fun x => (x.output.take 32, x.data.btcHeight % 2 ^ 32)) := by
    intro c hc
    exact ihc c hc (fun x hx => hleaf x
      (by rw [preorder_mk]; exact List.mem_cons_of_mem _ (mem_preorderChildren.mpr ⟨c, hc, hx⟩)))
  cases d with
  | attestation a =>
    cases a with
    | bitcoin h =>
      have hnil : children = [] := hleaf (.mk (.attestation (.bitcoin h)) o children)
        (by rw [preorder_mk]; simp) rfl
      subst hnil
      rw [find_bitcoin_attestation, preorder_mk, preorderChildren_nil]
      by_cases h32 : 32 ≤ o.length
      · have hp : isBtcCandidate (.mk (.attestation (.bitcoin h)) o []) = true := by
          simpa [isBtcCandidate, Step.data, Step.output] using h32
        rw [if_pos h32, List.find?_cons_of_pos _ hp]
        rfl
      · have hp : ¬ isBtcCandidate (.mk (.attestation (.bitcoin h)) o []) = true := by
          simpa [isBtcCandidate, Step.data, Step.output] using h32
        rw [if_neg h32, List.find?_cons_of_neg _ hp, List.find?_nil]
        rfl
    | pending uri =>
      rw [find_bitcoin_attestation, preorder_mk,
        List.find?_cons_of_neg _ (by simp [isBtcCandidate, Step.data])]
      exact findInChildren_eq_preorder _ _ children hchildren
    | unknown tag data =>
      rw [find_bitcoin_attestation, preorder_mk,
        List.find?_cons_of_neg _ (by simp [isBtcCandidate, Step.data])]
      exact findInChildren_eq_preorder _ _ children hchildren
  | fork =>
    rw [find_bitcoin_attestation, preorder_mk,
      List.find?_cons_of_neg _ (by simp [isBtcCandidate, Step.data])]
    exact findInChildren_eq_preorder _ _ children hchildren
  | op oo =>
    rw [find_bitcoin_attestation, preorder_mk,
      List.find?_cons_of_neg _ (by simp [isBtcCandidate, Step.data])]
    exact findInChildren_eq_preorder _ _ children hchildren

/-! ## Fork encoding closed form, serializer totality under arity -/

theorem serForkChildren_closed :
    ∀ (cs : List Step) (Bs : List (List Nat)),
      List.Forall₂ (fun c B => serStep c = some B) cs Bs →
      cs ≠ [] →
      serForkChildren cs =
        some ((Bs.dropLast.map (fun b => 0xff :: b)).flatten ++ Bs.getLastD []) := by
  intro cs
  induction cs with
  | nil => intro Bs _ hne; exact absurd rfl hne
  | cons c t ih =>
    intro Bs hall hne
    obtain ⟨B, Bs1, rfl, hcB, htail⟩ :
        ∃ B Bs1, Bs = B :: Bs1 ∧ serStep c = some B ∧
          List.Forall₂ (fun c B => serStep c = some B) t Bs1 := by
      cases hall with
      | cons h1 h2 => exact ⟨_, _, rfl, h1, h2⟩
    cases t with
    | nil =>
      obtain rfl : Bs1 = [] := by cases htail; rfl
      rw [show serForkChildren [c] = serStep c from by rw [serForkChildren], hcB]
      simp
    | cons c2 t2 =>
      obtain ⟨B2, Bs2, rfl, hcB2, htail2⟩ :
          ∃ B2 Bs2, Bs1 = B2 :: Bs2 ∧ serStep c2 = some B2 ∧
            List.Forall₂ (fun c B => serStep c = some B) t2 Bs2 := by
        cases htail with
        | cons h1 h2 => exact ⟨_, _, rfl, h1, h2⟩
      have ihr := ih (B2 :: Bs2) (List.Forall₂.cons hcB2 htail2) (by simp)
      rw [serForkChildren_cons_cons, hcB, ihr]
      have hgl : (B :: B2 :: Bs2).getLastD ([] : List Nat) = (B2 :: Bs2).getLastD [] := by
        rw [List.getLastD_cons]
        rw [List.getLastD_eq_getLast?, List.getLastD_eq_getLast?]
        cases hq : (B2 :: Bs2).getLast? with
        | some y => rfl
        | none => simp at hq
      rw [show (B :: B2 :: Bs2).dropLast = B :: (B2 :: Bs2).dropLast from by simp, hgl]
      simp

theorem serForkChildren_total :
    ∀ cs : List Step, cs ≠ [] → (∀ c ∈ cs, ∃ B, serStep c = some B) →
      ∃ B, serForkChildren cs = some B := by
  intro cs
  induction cs with
  | nil => exact fun hne _ => absurd rfl hne
  | cons c rest ihr =>
    intro _ hall
    cases rest with
    | nil =>
      rw [show serForkChildren [c] = serStep c from by rw [serForkChildren]]
      exact hall c (by simp)
    | cons r t =>
      obtain ⟨Bc, hBc⟩ := hall c (by simp)
      obtain ⟨Bs, hBs⟩ := ihr (by simp) (fun x hx => hall x (by simp [hx]))
      exact ⟨0xff :: Bc ++ Bs, by rw [serForkChildren_cons_cons, hBc, hBs]⟩

theorem serStep_total_of_arity :
    ∀ st : Step,
      (∀ x ∈ preorder st,
        (x.data = .fork → 1 ≤ x.next.length) ∧ ∀ o, x.data = .op o → 1 ≤ x.next.length) →
      ∃ B, serStep st = some B := by
  refine Step.ind (fun st =>
    (∀ x ∈ preorder st,
      (x.data = .fork → 1 ≤ x.next.length) ∧ ∀ o, x.data = .op o → 1 ≤ x.next.length) →
    ∃ B, serStep st = some B) ?_
  intro d o children ihc harity
  have hchild : ∀ c ∈ children, ∃ B, serStep c = some B := by
    intro c hc
    refine ihc c hc ?_
    intro x hx
    exact harity x (by
      rw [preorder_mk]
      exact List.mem_cons_of_mem _ (mem_preorderChildren.mpr ⟨c, hc, hx⟩))
  cases d with
  | attestation a => exact ⟨_, serStep_attestation a o children⟩
  | fork =>
    have hne : children ≠ [] := by
      have := (harity (.mk .fork o children) (by rw [preorder_mk]; simp)).1 rfl
      rw [Step.next] at this
      intro hc; subst hc; simp at this
    rw [serStep_fork]
    exact serForkChildren_total children hne hchild
  | op oo =>
    have hne : children ≠ [] := by
      have := (harity (.mk (.op oo) o children) (by rw [preorder_mk]; simp)).2 oo rfl
      rw [Step.next] at this
      intro hc; subst hc; simp at this
    obtain ⟨c, t, rfl⟩ : ∃ c t, children = c :: t := by
      cases children with
      | nil => exact absurd rfl hne
      | cons a b => exact ⟨a, b, rfl⟩
    obtain ⟨Bc, hBc⟩ := hchild c (by simp)
    exact ⟨oo.serialize ++ Bc, by rw [serStep_op, hBc]⟩

theorem serStep_fork_nil (o : List Nat) : serStep (.mk .fork o []) = none := by
  rw [serStep_fork, serForkChildren]

theorem serStep_op_nil (oo : Op) (o : List Nat) : serStep (.mk (.op oo) o []) = none := by
  rw [serStep]

/-! ## Claims -/

theorem read_bytes_too_long (mn mx n : Nat) (hn : mx < n) (rest : List Nat) :
    read_bytes mn mx (write_uint n ++ rest) = .error (.badLength mn mx n) := by
  rw [read_bytes, read_uint_write_uint]
  dsimp only
  rw [if_pos (Or.inr hn)]

/-- **C6.** Deserializing a Pending attestation fails with
`BadLength {min := 0, max := 1000, val := n}` when the declared URI length
`n` exceeds 1000, and fails with `InvalidUriChar c` when the URI decodes to
characters whose first non-whitelisted element is `c`; in particular a URI
containing only `$` past valid characters fails with the `$` character
(scalar `0x24`), as the witness instantiates. -/
theorem claim_C6_pending_errors :
    (∀ L n (rest : List Nat), MAX_URI_LEN < n →
      Attestation.deserialize (PENDING_TAG ++ write_uint L ++ (write_uint n ++ rest)) =
        .error (.badLength 0 MAX_URI_LEN n)) ∧
    (∀ L (bs rest : List Nat) (cs : List Nat) (c : Nat),
      bs.length ≤ MAX_URI_LEN →
      utf8Decode bs = some cs →
      cs.find? (fun c => ! isUriChar c) = some c →
      Attestation.deserialize (PENDING_TAG ++ write_uint L ++ (write_bytes bs ++ rest)) =
        .error (.invalidUriChar c)) := by
  constructor
  · intro L n rest hn
    rw [List.append_assoc, Attestation.deserialize, read_tag_pending]
    dsimp only
    rw [read_uint_write_uint]
    dsimp only
    rw [if_neg (by decide : PENDING_TAG ≠ BITCOIN_TAG), if_pos rfl, read_bytes_too_long 0
      MAX_URI_LEN n hn rest]
  · intro L bs rest cs c hlen hdec hfind
    rw [List.append_assoc, Attestation.deserialize, read_tag_pending]
    dsimp only
    rw [read_uint_write_uint]
    dsimp only
    rw [if_neg (by decide : PENDING_TAG ≠ BITCOIN_TAG), if_pos rfl,
      read_bytes_write_bytes 0 MAX_URI_LEN bs rest (by omega) hlen]
    dsimp only
    rw [hdec]
    dsimp only
    rw [hfind]

/-- Witness for C6: length 1001 trips `BadLength`, and the two-byte URI
`h$` fails with `InvalidUriChar '$'` (scalar 36). -/
theorem claim_C6_witness :
    (MAX_URI_LEN < 1001 ∧
      Attestation.deserialize (PENDING_TAG ++ write_uint 5 ++ (write_uint 1001 ++ [1, 2])) =
        .error (.badLength 0 MAX_URI_LEN 1001)) ∧
    ([0x68, 0x24].length ≤ MAX_URI_LEN ∧
      utf8Decode [0x68, 0x24] = some [0x68, 0x24] ∧
      [0x68, 0x24].find? (fun c => ! isUriChar c) = some 0x24 ∧
      Attestation.deserialize
          (PENDING_TAG ++ write_uint 5 ++ (write_bytes [0x68, 0x24] ++ [7])) =
        .error (.invalidUriChar 0x24)) :=
  ⟨⟨by decide, claim_C6_pending_errors.1 5 1001 [1, 2] (by decide)⟩,
   ⟨by decide, by decide, by decide,
    claim_C6_pending_errors.2 5 [0x68, 0x24] [7] [0x68, 0x24] 0x24 (by decide) (by decide)
      (by decide)⟩⟩

/-- **C8.** The varint codec: 0 encodes as the single byte `0x00` and decodes
back; 127, 128 and 16384 encode as the stated byte sequences; and decoding
the encoding of any `n` yields `n` with the stream fully consumed. -/
theorem claim_C8_varint_vectors :
    write_uint 0 = [0x00] ∧
    read_uint [0x00] = .ok (0, []) ∧
    write_uint 127 = [0x7f] ∧
    write_uint 128 = [0x80, 0x01] ∧
    write_uint 16384 = [0x80, 0x80, 0x01] ∧
    ∀ n, read_uint (write_uint n) = .ok (n, []) := by
  refine ⟨rfl, rfl, ?_, ?_, ?_, ?_⟩
  · rw [write_uint, if_neg (by norm_num), write_uint_go, if_neg (by norm_num),
      if_neg (by norm_num)]
  · have h1 : write_uint_go 1 = [1] := by
      rw [write_uint_go, if_neg (by norm_num), if_neg (by norm_num)]
    rw [write_uint, if_neg (by norm_num), write_uint_go, if_neg (by norm_num),
      if_pos (by norm_num), show (128 : Nat) >>> 7 = 1 from by decide, h1]
    decide
  · have h1 : write_uint_go 1 = [1] := by
      rw [write_uint_go, if_neg (by norm_num), if_neg (by norm_num)]
    have h128 : write_uint_go 128 = [0x80, 0x01] := by
      rw [write_uint_go, if_neg (by norm_num), if_pos (by norm_num),
        show (128 : Nat) >>> 7 = 1 from by decide, h1]
      decide
    rw [write_uint, if_neg (by norm_num), write_uint_go, if_neg (by norm_num),
      if_pos (by norm_num), show (16384 : Nat) >>> 7 = 128 from by decide, h128]
    decide
  · intro n
    have := read_uint_write_uint n []
    rwa [List.append_nil] at this

/-- **C9.** The Bitcoin branch of `Attestation::deserialize` ignores the
outer payload-length varint: for any declared outer length `L`, any height
varint and any surplus bytes, the attestation parses as `Bitcoin {height}`
after consuming only the 8-byte tag and the two varints, leaving the surplus
in the stream. -/
theorem claim_C9_bitcoin_ignores_length :
    ∀ L h (rest : List Nat),
      Attestation.deserialize (BITCOIN_TAG ++ write_uint L ++ (write_uint h ++ rest)) =
        .ok (.bitcoin h, rest) := by
  intro L h rest
  rw [List.append_assoc, Attestation.deserialize, read_tag_bitcoin]
  dsimp only
  rw [read_uint_write_uint]
  dsimp only
  rw [if_pos rfl, read_uint_write_uint]

/-- **C1 (counterexample).** The claim "`encode(decode(B)) == B` for every
accepted `B`" fails: `nonCanonicalFileBytes` encodes the version varint
non-minimally as `81 00`; `from_reader` accepts it, but `to_writer`
re-encodes the version minimally, so the bytes are not reproduced. -/
theorem claim_C1_counterexample :
    DetachedTimestampFile.from_reader stubHash nonCanonicalFileBytes = .ok nonCanonicalDecoded ∧
    nonCanonicalDecoded.to_writer ≠ some nonCanonicalFileBytes := by
  constructor
  · rfl
  · have h1 : write_uint 1 = [1] := by
      rw [write_uint, if_neg (by norm_num), write_uint_go, if_neg (by norm_num),
        if_neg (by norm_num)]
    have hser : nonCanonicalDecoded.timestamp.serialize =
        some (0x00 :: (BITCOIN_TAG ++ ([1] ++ [0]))) := by
      rw [show nonCanonicalDecoded.timestamp.serialize =
          serStep (.mk (.attestation (.bitcoin 0)) (List.replicate 32 0x00) []) from rfl,
        serStep_attestation, Attestation.serialize,
        show write_uint 0 = [0] from rfl, write_bytes,
        show ([0] : List Nat).length = 1 from rfl, h1]
    rw [DetachedTimestampFile.to_writer, hser]
    dsimp only
    rw [h1]
    decide

/-- **C1 (amended).** For every byte string `B` accepted by `from_reader`,
re-serializing the parsed value succeeds and yields bytes that `from_reader`
parses back to the very same value (so `encode ∘ decode` is idempotent);
byte-exact reproduction of `B` itself holds only for canonically encoded
inputs. -/
theorem claim_C1_reencode_roundtrip :
    ∀ (H : HashImpl) (B : List Nat) (F : DetachedTimestampFile),
      DetachedTimestampFile.from_reader H B = .ok F →
      ∃ B', F.to_writer = some B' ∧ DetachedTimestampFile.from_reader H B' = .ok F := by
  intro H B F h
  obtain ⟨hL, hh, hdl⟩ := from_reader_post h
  exact from_reader_canonical F hL hh hdl

/-- Witness for the amended C1 at the non-canonical input. -/
theorem claim_C1_witness :
    ∃ B', nonCanonicalDecoded.to_writer = some B' ∧
      DetachedTimestampFile.from_reader stubHash B' = .ok nonCanonicalDecoded :=
  claim_C1_reencode_roundtrip stubHash nonCanonicalFileBytes nonCanonicalDecoded rfl

/-- **C2 (counterexample).** `nestedForkTimestamp` satisfies the node
invariants enumerated in the claim (checked here as `SpecLegal`), yet
decoding its serialization does not reproduce it: the decoder returns the
flattened three-way fork, because the wire format cannot mark a Fork that is
the last child of a Fork. -/
theorem claim_C2_counterexample :
    SpecLegal stubHash nestedForkTimestamp.start_digest nestedForkTimestamp.first_step ∧
    ∃ B, nestedForkTimestamp.serialize = some B ∧
      Timestamp.deserialize stubHash nestedForkTimestamp.start_digest B ≠
        .ok (nestedForkTimestamp, []) := by
  constructor
  · show SpecLegal stubHash [0x09]
      (.mk .fork [0x09]
        [.mk (.attestation (.bitcoin 1)) [0x09] [],
         .mk .fork [0x09]
           [.mk (.attestation (.bitcoin 2)) [0x09] [],
            .mk (.attestation (.bitcoin 3)) [0x09] []]])
    refine SpecLegal.fork _ _ (by simp) ?_
    intro c hc
    simp only [List.mem_cons, List.mem_singleton, List.not_mem_nil] at hc
    rcases hc with rfl | rfl | hc
    · exact SpecLegal.attestation _ _ trivial
    · refine SpecLegal.fork _ _ (by simp) ?_
      intro c hc
      simp only [List.mem_cons, List.mem_singleton, List.not_mem_nil] at hc
      rcases hc with rfl | rfl | hc
      · exact SpecLegal.attestation _ _ trivial
      · exact SpecLegal.attestation _ _ trivial
      · cases hc
    · cases hc
  · have h1 : write_uint 1 = [1] := by
      rw [write_uint, if_neg (by norm_num), write_uint_go, if_neg (by norm_num),
        if_neg (by norm_num)]
    have hatt : ∀ n : Nat, n ≤ 127 → n ≠ 0 →
        Attestation.serialize (.bitcoin n) = BITCOIN_TAG ++ ([1] ++ [n]) := by
      intro n hn hn0
      rw [Attestation.serialize, write_uint, if_neg hn0, write_uint_go, if_neg hn0,
        if_neg (by omega), write_bytes, show ([n] : List Nat).length = 1 from rfl, h1]
    refine ⟨0xff :: ((0x00 :: (BITCOIN_TAG ++ ([1] ++ [1]))) ++
      (0xff :: ((0x00 :: (BITCOIN_TAG ++ ([1] ++ [2]))) ++
        (0x00 :: (BITCOIN_TAG ++ ([1] ++ [3])))))), ?_, ?_⟩
    · rw [show nestedForkTimestamp.serialize =
          serForkChildren
            [.mk (.attestation (.bitcoin 1)) [0x09] [],
             .mk .fork [0x09]
               [.mk (.attestation (.bitcoin 2)) [0x09] [],
                .mk (.attestation (.bitcoin 3)) [0x09] []]] from by
        rw [show nestedForkTimestamp.serialize = serStep nestedForkTimestamp.first_step
          from rfl, show nestedForkTimestamp.first_step = Step.mk .fork [0x09]
            [.mk (.attestation (.bitcoin 1)) [0x09] [],
             .mk .fork [0x09]
               [.mk (.attestation (.bitcoin 2)) [0x09] [],
                .mk (.attestation (.bitcoin 3)) [0x09] []]] from rfl, serStep_fork]]
      rw [serForkChildren_cons_cons, serStep_attestation,
        show serForkChildren [Step.mk .fork [0x09]
          [.mk (.attestation (.bitcoin 2)) [0x09] [],
           .mk (.attestation (.bitcoin 3)) [0x09] []]] =
          serStep (Step.mk .fork [0x09]
            [.mk (.attestation (.bitcoin 2)) [0x09] [],
             .mk (.attestation (.bitcoin 3)) [0x09] []]) from by rw [serForkChildren],
        serStep_fork, serForkChildren_cons_cons, serStep_attestation,
        show serForkChildren [Step.mk (.attestation (.bitcoin 3)) [0x09] []] =
          serStep (Step.mk (.attestation (.bitcoin 3)) [0x09] []) from by
            rw [serForkChildren],
        serStep_attestation, hatt 1 (by norm_num) (by norm_num),
        hatt 2 (by norm_num) (by norm_num), hatt 3 (by norm_num) (by norm_num)]
      rfl
    · intro hEq
      have hdec : Timestamp.deserialize stubHash [0x09]
          (0xff :: ((0x00 :: (BITCOIN_TAG ++ ([1] ++ [1]))) ++
            (0xff :: ((0x00 :: (BITCOIN_TAG ++ ([1] ++ [2]))) ++
              (0x00 :: (BITCOIN_TAG ++ ([1] ++ [3]))))))) =
          .ok (⟨[0x09], .mk .fork [0x09]
            [.mk (.attestation (.bitcoin 1)) [0x09] [],
             .mk (.attestation (.bitcoin 2)) [0x09] [],
             .mk (.attestation (.bitcoin 3)) [0x09] []]⟩, []) := rfl
      rw [show nestedForkTimestamp.start_digest = [0x09] from rfl, hdec] at hEq
      simp [nestedForkTimestamp] at hEq

/-- **C2 (amended).** For every tree satisfying the node invariants (`Legal`:
the enumerated invariants plus the depth bound and the constraint that no
Fork's last child is itself a Fork), serializing and deserializing with the
start digest reproduces the tree exactly. -/
theorem claim_C2_roundtrip :
    ∀ (H : HashImpl) (t : Timestamp),
      Legal H t.start_digest t.first_step →
      t.first_step.height ≤ RECURSION_LIMIT →
      ∃ B, t.serialize = some B ∧
        Timestamp.deserialize H t.start_digest B = .ok (t, []) :=
  fun H t hL hh => Timestamp.deserialize_serialize t hL hh

/-- Witness for the amended C2 at a one-node tree. -/
theorem claim_C2_witness :
    ∃ B, Timestamp.serialize ⟨[5], .mk (.attestation (.bitcoin 7)) [5] []⟩ = some B ∧
      Timestamp.deserialize stubHash [5] B =
        .ok (⟨[5], .mk (.attestation (.bitcoin 7)) [5] []⟩, []) :=
  claim_C2_roundtrip stubHash ⟨[5], .mk (.attestation (.bitcoin 7)) [5] []⟩
    (Legal.attestation [5] (.bitcoin 7) trivial)
    (by simp [height_mk, heightChildren_nil, RECURSION_LIMIT])

/-- **C3.** Every tree returned by `Timestamp::deserialize` satisfies the
semantic-execution invariant: Op nodes output the op applied to their input
and pass it to their single child, Fork and attestation nodes leave the
input unchanged. -/
theorem claim_C3_semantic_execution :
    ∀ (H : HashImpl) (digest s : List Nat) (ts : Timestamp) (rest : List Nat),
      Timestamp.deserialize H digest s = .ok (ts, rest) →
      ts.start_digest = digest ∧ SemExec H digest ts.first_step := by
  intro H digest s ts rest h
  obtain ⟨h1, h2, h3⟩ := Timestamp.deserialize_post h
  exact ⟨h1, h2.semExec⟩

set_option maxRecDepth 100000 in
/-- Witness for C3 on a concrete decode. -/
theorem claim_C3_witness :
    (⟨[9], Step.mk (.attestation (.bitcoin 42)) [9] []⟩ : Timestamp).start_digest = [9] ∧
      SemExec stubHash [9]
        (⟨[9], Step.mk (.attestation (.bitcoin 42)) [9] []⟩ : Timestamp).first_step := by
  have h : Timestamp.deserialize stubHash [9] ([0x00] ++ BITCOIN_TAG ++ [1, 42]) =
      .ok (⟨[9], .mk (.attestation (.bitcoin 42)) [9] []⟩, []) := rfl
  exact claim_C3_semantic_execution stubHash [9] ([0x00] ++ BITCOIN_TAG ++ [1, 42])
    ⟨[9], .mk (.attestation (.bitcoin 42)) [9] []⟩ [] h

/-- **C4.** Fork nodes of decoded trees have at least two children; the
serializer writes a fork with children encodings `Bs` as `0xff` before each
child encoding except the last (exactly `n - 1` prefixes, children in
order); and serializing then deserializing a legal tree reproduces it (in
particular the order of fork children). -/
theorem claim_C4_forks :
    (∀ (H : HashImpl) (digest s : List Nat) (ts : Timestamp) (rest : List Nat),
      Timestamp.deserialize H digest s = .ok (ts, rest) →
      ∀ x ∈ preorder ts.first_step, x.data = .fork → 2 ≤ x.next.length) ∧
    (∀ (input : List Nat) (children : List Step) (Bs : List (List Nat)),
      List.Forall₂ (fun c B => serStep c = some B) children Bs →
      children ≠ [] →
      serStep (.mk .fork input children) =
          some ((Bs.dropLast.map (fun b => 0xff :: b)).flatten ++ Bs.getLastD []) ∧
        (Bs.dropLast.map (fun b => 0xff :: b)).length = children.length - 1) ∧
    (∀ (H : HashImpl) (t : Timestamp),
      Legal H t.start_digest t.first_step →
      t.first_step.height ≤ RECURSION_LIMIT →
      ∃ B, t.serialize = some B ∧
        Timestamp.deserialize H t.start_digest B = .ok (t, [])) := by
  refine ⟨?_, ?_, fun _ t hL hh => Timestamp.deserialize_serialize t hL hh⟩
  · intro H digest s ts rest h
    obtain ⟨h1, h2, h3⟩ := Timestamp.deserialize_post h
    exact h2.fork_arity
  · intro input children Bs hf hne
    constructor
    · rw [serStep_fork]
      exact serForkChildren_closed children Bs hf hne
    · rw [List.length_map, List.length_dropLast, ← hf.length_eq]

set_option maxRecDepth 100000 in
/-- Witness for C4 on a two-child fork of Bitcoin attestations. -/
theorem claim_C4_witness :
    2 ≤ (Step.mk .fork [9]
      [Step.mk (.attestation (.bitcoin 1)) [9] [],
       Step.mk (.attestation (.bitcoin 2)) [9] []]).next.length ∧
    serStep (.mk .fork [9]
        [Step.mk (.attestation (.bitcoin 1)) [9] [],
         Step.mk (.attestation (.bitcoin 2)) [9] []]) =
      some (([0x00 :: (BITCOIN_TAG ++ ([1] ++ [1])),
              0x00 :: (BITCOIN_TAG ++ ([1] ++ [2]))].dropLast.map
          (fun b => 0xff :: b)).flatten ++
        [0x00 :: (BITCOIN_TAG ++ ([1] ++ [1])),
         0x00 :: (BITCOIN_TAG ++ ([1] ++ [2]))].getLastD []) ∧
    ∃ B, Timestamp.serialize ⟨[9], Step.mk .fork [9]
        [Step.mk (.attestation (.bitcoin 1)) [9] [],
         Step.mk (.attestation (.bitcoin 2)) [9] []]⟩ = some B ∧
      Timestamp.deserialize stubHash [9] B =
        .ok ((⟨[9], Step.mk .fork [9]
          [Step.mk (.attestation (.bitcoin 1)) [9] [],
           Step.mk (.attestation (.bitcoin 2)) [9] []]⟩ : Timestamp), []) := by
  have hE1 : serStep (Step.mk (.attestation (.bitcoin 1)) [9] []) =
      some (0x00 :: (BITCOIN_TAG ++ ([1] ++ [1]))) := by
    rw [serStep_attestation]
    simp [Attestation.serialize, write_bytes, write_uint, write_uint_go]
  have hE2 : serStep (Step.mk (.attestation (.bitcoin 2)) [9] []) =
      some (0x00 :: (BITCOIN_TAG ++ ([1] ++ [2]))) := by
    rw [serStep_attestation]
    simp [Attestation.serialize, write_bytes, write_uint, write_uint_go]
  refine ⟨?_, ?_, ?_⟩
  · have hdec : Timestamp.deserialize stubHash [9]
        (0xff :: ((0x00 :: (BITCOIN_TAG ++ ([1] ++ [1]))) ++
          (0x00 :: (BITCOIN_TAG ++ ([1] ++ [2]))))) =
        .ok ((⟨[9], Step.mk .fork [9]
          [Step.mk (.attestation (.bitcoin 1)) [9] [],
           Step.mk (.attestation (.bitcoin 2)) [9] []]⟩ : Timestamp), []) := rfl
    refine claim_C4_forks.1 stubHash [9] _ _ [] hdec _ ?_ rfl
    show Step.mk .fork [9] _ ∈ preorder (Step.mk .fork [9]
      [Step.mk (.attestation (.bitcoin 1)) [9] [],
       Step.mk (.attestation (.bitcoin 2)) [9] []])
    rw [preorder_mk]
    exact List.mem_cons_self _ _
  · exact (claim_C4_forks.2.1 [9]
      [Step.mk (.attestation (.bitcoin 1)) [9] [],
       Step.mk (.attestation (.bitcoin 2)) [9] []]
      [0x00 :: (BITCOIN_TAG ++ ([1] ++ [1])),
       0x00 :: (BITCOIN_TAG ++ ([1] ++ [2]))]
      (List.Forall₂.cons hE1 (List.Forall₂.cons hE2 List.Forall₂.nil))
      (by simp)).1
  · refine claim_C4_forks.2.2 stubHash
      ⟨[9], Step.mk .fork [9]
        [Step.mk (.attestation (.bitcoin 1)) [9] [],
         Step.mk (.attestation (.bitcoin 2)) [9] []]⟩ ?_ ?_
    · refine Legal.fork [9] _ (by simp) ?_ ?_
      · intro c hc
        simp only [List.mem_cons, List.not_mem_nil, or_false] at hc
        rcases hc with rfl | rfl
        · exact Legal.attestation [9] (.bitcoin 1) trivial
        · exact Legal.attestation [9] (.bitcoin 2) trivial
      · intro lc hlc
        rw [List.getLast?_cons_cons, List.getLast?_singleton] at hlc
        cases hlc
        exact fun h => StepData.noConfusion h
    · show (Step.mk .fork [9]
        [Step.mk (.attestation (.bitcoin 1)) [9] [],
         Step.mk (.attestation (.bitcoin 2)) [9] []]).height ≤ RECURSION_LIMIT
      simp [height_mk, heightChildren_cons, heightChildren_nil, RECURSION_LIMIT,
        Step.height]

/-- **C5.** For a legal tree and its serialization, `Timestamp::deserialize`
fails with `StackOverflow` exactly when the tree's root-to-leaf node count
exceeds `RECURSION_LIMIT = 256`; in particular an input of 257 nested Op
tags followed by an attestation fails with `StackOverflow`, while the
255-op chain (256 nodes ending in an attestation) decodes successfully. -/
theorem claim_C5_stack_overflow :
    (∀ (H : HashImpl) (input : List Nat) (st : Step) (B : List Nat),
      Legal H input st → serStep st = some B →
      (Timestamp.deserialize H input B = .error .stackOverflow ↔
        RECURSION_LIMIT < st.height)) ∧
    (∀ (H : HashImpl) (input : List Nat),
      Timestamp.deserialize H input
        (List.replicate 257 0x08 ++ (0x00 :: (BITCOIN_TAG ++ [1, 42]))) =
        .error .stackOverflow) ∧
    (∀ (H : HashImpl) (input : List Nat),
      Timestamp.deserialize H input
        (List.replicate 255 0x08 ++ (0x00 :: (BITCOIN_TAG ++ [1, 42]))) =
        .ok (⟨input, chainTree H input 255⟩, [])) := by
  refine ⟨?_, ?_, ?_⟩
  · intro H input st B hL hB
    constructor
    · intro he
      by_contra hcon
      rw [Nat.not_lt] at hcon
      obtain ⟨B2, hB2, hdec⟩ := Timestamp.deserialize_serialize ⟨input, st⟩ hL hcon
      rw [show Timestamp.serialize ⟨input, st⟩ = serStep st from rfl, hB] at hB2
      obtain rfl := Option.some.inj hB2
      dsimp only at hdec
      rw [hdec] at he
      exact Except.noConfusion he
    · intro hh
      exact Timestamp.deserialize_overflow hL hh hB
  · intro H input
    refine Timestamp.deserialize_overflow (chainTree_legal H input 257) ?_
      (chainTree_ser H input 257)
    rw [chainTree_height]
    decide
  · intro H input
    obtain ⟨B, hB, hdec⟩ := Timestamp.deserialize_serialize
      ⟨input, chainTree H input 255⟩ (chainTree_legal H input 255)
      (by show (chainTree H input 255).height ≤ RECURSION_LIMIT
          rw [chainTree_height]; decide)
    rw [show Timestamp.serialize ⟨input, chainTree H input 255⟩ =
      serStep (chainTree H input 255) from rfl, chainTree_ser] at hB
    obtain rfl := Option.some.inj hB
    dsimp only at hdec
    exact hdec

/-- Witness for C5: the equivalence instantiated at a one-node tree, and the
two chain instances at a concrete hash implementation and start digest. -/
theorem claim_C5_witness :
    (Timestamp.deserialize stubHash [5] (0x00 :: (BITCOIN_TAG ++ ([1] ++ [7]))) =
        .error .stackOverflow ↔
      RECURSION_LIMIT < (Step.mk (.attestation (.bitcoin 7)) [5] []).height) ∧
    Timestamp.deserialize stubHash [9]
      (List.replicate 257 0x08 ++ (0x00 :: (BITCOIN_TAG ++ [1, 42]))) =
      .error .stackOverflow ∧
    Timestamp.deserialize stubHash [9]
      (List.replicate 255 0x08 ++ (0x00 :: (BITCOIN_TAG ++ [1, 42]))) =
      .ok (⟨[9], chainTree stubHash [9] 255⟩, []) := by
  refine ⟨claim_C5_stack_overflow.1 stubHash [5]
      (.mk (.attestation (.bitcoin 7)) [5] []) _
      (Legal.attestation [5] (.bitcoin 7) trivial) ?_,
    claim_C5_stack_overflow.2.1 stubHash [9],
    claim_C5_stack_overflow.2.2 stubHash [9]⟩
  rw [serStep_attestation]
  simp [Attestation.serialize, write_bytes, write_uint, write_uint_go]

/-- **C7.** On a tree whose Bitcoin attestations are leaves, the
verification walk is the depth-first preorder search: it selects the first
node in preorder whose data is a Bitcoin attestation with output length at
least 32 (shorter Bitcoin leaves are skipped), taking the first 32 output
bytes as candidate Merkle root; if no such node exists it reports
`NoBitcoinAttestation`; otherwise it succeeds exactly when the block
verifier returns a matching `merkle_root` for the attested height and
reports a mismatch otherwise. -/
theorem claim_C7_verification_walk :
    ∀ (hdr : Nat → BlockHeader) (first : Step),
      (∀ x ∈ preorder first, x.data.isBitcoin = true → x.next = []) →
      (find_bitcoin_attestation first =
        ((preorder first).find? isBtcCandidate).map
          (fun x => (x.output.take 32, x.data.btcHeight % 2 ^ 32))) ∧
      ((preorder first).find? isBtcCandidate = none →
        verifyWalk hdr first = .noBitcoinAttestation) ∧
      (∀ x, (preorder first).find? isBtcCandidate = some x →
        (x.output.take 32 = (hdr (x.data.btcHeight % 2 ^ 32)).merkle_root →
          verifyWalk hdr first = .success) ∧
        (x.output.take 32 ≠ (hdr (x.data.btcHeight % 2 ^ 32)).merkle_root →
          verifyWalk hdr first = .merkleMismatch)) := by
  intro hdr first hleaf
  have hfind := find_bitcoin_eq_preorder first hleaf
  refine ⟨hfind, ?_, ?_⟩
  · intro hnone
    rw [verifyWalk, hfind, hnone]
    rfl
  · intro x hx
    constructor
    · intro heq
      rw [verifyWalk, hfind, hx]
      dsimp only [Option.map]
      rw [if_pos heq]
    · intro hne
      rw [verifyWalk, hfind, hx]
      dsimp only [Option.map]
      rw [if_neg hne]

/-- Witness for C7: a fork whose first Bitcoin leaf has a 1-byte output (too
short, skipped) and whose second has a 32-byte output matching the block
verifier's Merkle root; the walk equals the preorder search and succeeds. -/
theorem claim_C7_witness :
    (find_bitcoin_attestation (Step.mk .fork [9]
        [Step.mk (.attestation (.bitcoin 5)) [1] [],
         Step.mk (.attestation (.bitcoin 6)) (List.replicate 32 7) []]) =
      ((preorder (Step.mk .fork [9]
        [Step.mk (.attestation (.bitcoin 5)) [1] [],
         Step.mk (.attestation (.bitcoin 6)) (List.replicate 32 7) []])).find?
          isBtcCandidate).map
        (fun x => (x.output.take 32, x.data.btcHeight % 2 ^ 32))) ∧
    verifyWalk (fun _ => ⟨List.replicate 32 7, 0⟩)
      (Step.mk .fork [9]
        [Step.mk (.attestation (.bitcoin 5)) [1] [],
         Step.mk (.attestation (.bitcoin 6)) (List.replicate 32 7) []]) =
      .success := by
  have hleaf : ∀ x ∈ preorder (Step.mk .fork [9]
      [Step.mk (.attestation (.bitcoin 5)) [1] [],
       Step.mk (.attestation (.bitcoin 6)) (List.replicate 32 7) []]),
      x.data.isBitcoin = true → x.next = [] := by
    intro x hx
    rw [preorder_mk, preorderChildren_cons, preorderChildren_cons,
      preorderChildren_nil, preorder_mk, preorderChildren_nil,
      preorder_mk, preorderChildren_nil] at hx
    simp only [List.append_nil, List.singleton_append, List.mem_cons,
      List.not_mem_nil, or_false] at hx
    rcases hx with rfl | rfl | rfl
    · intro h; exact absurd h (by decide)
    · intro h; rfl
    · intro h; rfl
  have h := claim_C7_verification_walk (fun _ => ⟨List.replicate 32 7, 0⟩)
    (Step.mk .fork [9]
      [Step.mk (.attestation (.bitcoin 5)) [1] [],
       Step.mk (.attestation (.bitcoin 6)) (List.replicate 32 7) []]) hleaf
  have hfind : (preorder (Step.mk .fork [9]
      [Step.mk (.attestation (.bitcoin 5)) [1] [],
       Step.mk (.attestation (.bitcoin 6)) (List.replicate 32 7) []])).find?
        isBtcCandidate =
      some (Step.mk (.attestation (.bitcoin 6)) (List.replicate 32 7) []) := by
    rw [preorder_mk, preorderChildren_cons, preorderChildren_cons,
      preorderChildren_nil, preorder_mk, preorderChildren_nil,
      preorder_mk, preorderChildren_nil]
    rfl
  exact ⟨h.1, (h.2.2 _ hfind).1 rfl⟩

/-- **C10.** The serializer is partial exactly at the arity violations: it
has no result (the Rust code panics) on a Fork step with zero children and
on an Op step with an empty child list, while on every tree in which each
Fork and each Op node has at least one child it produces a byte string. -/
theorem claim_C10_serializer_totality :
    (∀ o : List Nat, serStep (.mk .fork o []) = none) ∧
    (∀ (oo : Op) (o : List Nat), serStep (.mk (.op oo) o []) = none) ∧
    (∀ st : Step,
      (∀ x ∈ preorder st,
        (x.data = .fork → 1 ≤ x.next.length) ∧
          ∀ o, x.data = .op o → 1 ≤ x.next.length) →
      ∃ B, serStep st = some B) :=
  ⟨serStep_fork_nil, serStep_op_nil, serStep_total_of_arity⟩

/-- Witness for C10: the totality branch applied to an attestation leaf. -/
theorem claim_C10_witness :
    ∃ B, serStep (.mk (.attestation (.bitcoin 7)) [5] []) = some B :=
  claim_C10_serializer_totality.2.2 (.mk (.attestation (.bitcoin 7)) [5] []) (by
    intro x hx
    rw [preorder_mk, preorderChildren_nil] at hx
    simp only [List.mem_singleton] at hx
    subst hx
    exact ⟨fun h => StepData.noConfusion h, fun o h => StepData.noConfusion h⟩)

end OTS
